import Mathlib

/-!
TaskMe: a cooperative task scheduler.

A shallow embedding of `src/TaskMe.h` and `src/src/TaskMe.cpp`.

* Function pointers (`Action`) are `Option Nat`: `none` is `nullptr`, `some f` is the
  address of the host function `f`.
* The table `_tasks` (an array of `_capacity` nullable owning pointers) is a list of
  optional task records; a pointer to a live task is its slot index.
* `uint8_t` arithmetic (`_count++`, `_count--`) is arithmetic modulo `256`;
  `unsigned long` arithmetic is arithmetic modulo `2 ^ w`, `w` being the width of
  `unsigned long` on the target.
* `millis()` belongs to the Arduino core, not to this repository: every call of it has
  its own reading.  A registration calls it once, in `addTask`: the parameter `now`.  An
  `Update` pass calls it in `updateTask`, once for every occupied slot, and again in
  `rearmTask`, after the action of the task has run; host functions that register tasks
  call it as well.  The readings of one pass are the parameter `clock`, a `Clock`; nothing
  is assumed about them, so the clock may advance, or wrap, between any two calls.
* The host functions behind the function pointers are not part of the repository
  either.  They are the parameter `host`: for every function address the list of
  scheduler calls its body makes.  A function that does not touch the scheduler has
  the empty list.  Every invocation is recorded in a trace of events, together with the
  slot and the field (`action` or `callback`) it was made through.
* A state is `Valid` when the array has `_capacity` entries and the `uint8_t` fields are
  below 256, and `Consistent` when moreover `_count` is the number of occupied slots.
-/

namespace Sched

/-- The type `Action` of the header, `void(*)()`: `none` is the null pointer. -/
abbrev Action := Option Nat

/-- The record `Task` of the header. -/
structure Task where
  time : Nat
  trigger : Nat
  repetitions : Nat
  action : Action
  alternateAction : Action
  callback : Action
deriving DecidableEq, Repr

/-- The private state of the class `TaskMe`. -/
structure TaskMe where
  _tasks : List (Option Task)
  _capacity : Nat
  _count : Nat
deriving DecidableEq, Repr

/-- Conversion of an `int` argument to an `unsigned long` of `w` bits. -/
def toULong (w : Nat) (time : Int) : Nat :=
  (time % ((2 ^ w : Nat) : Int)).toNat

/-- The constructor `TaskMe::TaskMe(uint8_t capacity)`: `capacity` null slots, count zero. -/
def TaskMe.new (capacity : Nat) : TaskMe :=
  { _tasks := List.replicate (capacity % 256) none
    _capacity := capacity % 256
    _count := 0 }

/-- The pointer stored in `_tasks[index]`. -/
def TaskMe.slot (s : TaskMe) (index : Nat) : Option Task :=
  s._tasks.getD index none

/-- The accessor `Capacity()`. -/
def TaskMe.Capacity (s : TaskMe) : Nat := s._capacity

/-- The accessor `Count()`. -/
def TaskMe.Count (s : TaskMe) : Nat := s._count

/-- The query `IsFull()`: `_count >= _capacity`. -/
def TaskMe.IsFull (s : TaskMe) : Bool := decide (s._count ≥ s._capacity)

/-- The query `IsEmpty()`: `_count == 0`. -/
def TaskMe.IsEmpty (s : TaskMe) : Bool := decide (s._count = 0)

/-- The scan of `addTask`: the first index below `_capacity` whose slot is null. -/
def TaskMe.firstFree (s : TaskMe) : Option Nat :=
  (List.range s._capacity).find? (fun index => (s.slot index).isNone)

/-- The private `addTask`.  Returns the new state and the `uint8_t` result. -/
def TaskMe.addTask (s : TaskMe) (w now : Nat) (time : Int) (action alternateAction : Action)
    (repetitions : Nat) (callback : Action) : TaskMe × Nat :=
  if s.IsFull then (s, s._count)
  else
    match s.firstFree with
    | some index =>
      ({ s with
          _tasks := s._tasks.set index (some
            { time := toULong w time
              trigger := (now + toULong w time) % 2 ^ w
              action := action
              alternateAction := alternateAction
              repetitions := repetitions
              callback := callback })
          _count := (s._count + 1) % 256 }, index)
    | none => (s, s._count)

/-- The static `rearmTask`, acting on the record `task` points to. -/
def TaskMe.rearmTask (w now : Nat) (task : Task) (action alternateAction : Action)
    (repetitions : Nat) : Task :=
  { task with
    trigger := (now + task.time) % 2 ^ w
    action := action
    alternateAction := alternateAction
    repetitions := repetitions }

/-- The private `removeTask`: guarded by the range check only. -/
def TaskMe.removeTask (s : TaskMe) (index : Nat) : TaskMe :=
  if index ≥ s._capacity then s
  else { s with _tasks := s._tasks.set index none, _count := (s._count + 255) % 256 }

/-- The public `CancelTask(uint8_t index)`. -/
def TaskMe.CancelTask (s : TaskMe) (index : Nat) : TaskMe := s.removeTask index

/-- `AddDelay(time, callback)`. -/
def TaskMe.AddDelay (s : TaskMe) (w now : Nat) (time : Int) (callback : Action) : TaskMe × Nat :=
  s.addTask w now time none none 1 callback

/-- `AddSingle(time, action)`. -/
def TaskMe.AddSingle (s : TaskMe) (w now : Nat) (time : Int) (action : Action) : TaskMe × Nat :=
  s.addTask w now time action none 1 none

/-- `AddSingle(time, action, callback)`. -/
def TaskMe.AddSingle_callback (s : TaskMe) (w now : Nat) (time : Int) (action callback : Action) :
    TaskMe × Nat :=
  s.addTask w now time action none 1 callback

/-- `AddRepetitive(time, action, repetitions)`. -/
def TaskMe.AddRepetitive (s : TaskMe) (w now : Nat) (time : Int) (action : Action)
    (repetitions : Nat) : TaskMe × Nat :=
  s.addTask w now time action none repetitions none

/-- `AddRepetitive(time, action, repetitions, callback)`. -/
def TaskMe.AddRepetitive_callback (s : TaskMe) (w now : Nat) (time : Int) (action : Action)
    (repetitions : Nat) (callback : Action) : TaskMe × Nat :=
  s.addTask w now time action none repetitions callback

/-- `AddContinuous(time, action)`. -/
def TaskMe.AddContinuous (s : TaskMe) (w now : Nat) (time : Int) (action : Action) : TaskMe × Nat :=
  s.addTask w now time action none 0 none

/-- `AddContinuous(time, action, callback)`. -/
def TaskMe.AddContinuous_callback (s : TaskMe) (w now : Nat) (time : Int)
    (action callback : Action) : TaskMe × Nat :=
  s.addTask w now time action none 0 callback

/-- `AddAlternant(time, action, alternateAction, repetitions)`. -/
def TaskMe.AddAlternant (s : TaskMe) (w now : Nat) (time : Int) (action alternateAction : Action)
    (repetitions : Nat) : TaskMe × Nat :=
  s.addTask w now time action alternateAction repetitions none

/-- `AddAlternant(time, action, alternateAction, repetitions, callback)`. -/
def TaskMe.AddAlternant_callback (s : TaskMe) (w now : Nat) (time : Int)
    (action alternateAction : Action) (repetitions : Nat) (callback : Action) : TaskMe × Nat :=
  s.addTask w now time action alternateAction repetitions callback

/-- `AddAlternantContinuous(time, action, alternateAction)`. -/
def TaskMe.AddAlternantContinuous (s : TaskMe) (w now : Nat) (time : Int)
    (action alternateAction : Action) : TaskMe × Nat :=
  s.addTask w now time action alternateAction 0 none

/-- `AddAlternantContinuous(time, action, alternateAction, callback)`. -/
def TaskMe.AddAlternantContinuous_callback (s : TaskMe) (w now : Nat) (time : Int)
    (action alternateAction callback : Action) : TaskMe × Nat :=
  s.addTask w now time action alternateAction 0 callback

/-- A call of one of the eleven public registration functions, with its arguments. -/
inductive AddCall where
  | AddDelay (time : Int) (callback : Action)
  | AddSingle (time : Int) (action : Action)
  | AddSingle_callback (time : Int) (action callback : Action)
  | AddRepetitive (time : Int) (action : Action) (repetitions : Nat)
  | AddRepetitive_callback (time : Int) (action : Action) (repetitions : Nat) (callback : Action)
  | AddContinuous (time : Int) (action : Action)
  | AddContinuous_callback (time : Int) (action callback : Action)
  | AddAlternant (time : Int) (action alternateAction : Action) (repetitions : Nat)
  | AddAlternant_callback (time : Int) (action alternateAction : Action) (repetitions : Nat)
      (callback : Action)
  | AddAlternantContinuous (time : Int) (action alternateAction : Action)
  | AddAlternantContinuous_callback (time : Int) (action alternateAction callback : Action)
deriving DecidableEq, Repr

/-- Execution of a registration call. -/
def TaskMe.register (s : TaskMe) (w now : Nat) : AddCall → TaskMe × Nat
  | .AddDelay time callback => s.AddDelay w now time callback
  | .AddSingle time action => s.AddSingle w now time action
  | .AddSingle_callback time action callback => s.AddSingle_callback w now time action callback
  | .AddRepetitive time action repetitions => s.AddRepetitive w now time action repetitions
  | .AddRepetitive_callback time action repetitions callback =>
    s.AddRepetitive_callback w now time action repetitions callback
  | .AddContinuous time action => s.AddContinuous w now time action
  | .AddContinuous_callback time action callback =>
    s.AddContinuous_callback w now time action callback
  | .AddAlternant time action alternateAction repetitions =>
    s.AddAlternant w now time action alternateAction repetitions
  | .AddAlternant_callback time action alternateAction repetitions callback =>
    s.AddAlternant_callback w now time action alternateAction repetitions callback
  | .AddAlternantContinuous time action alternateAction =>
    s.AddAlternantContinuous w now time action alternateAction
  | .AddAlternantContinuous_callback time action alternateAction callback =>
    s.AddAlternantContinuous_callback w now time action alternateAction callback

/-- A scheduler call made from the body of a host function. -/
inductive HostCall where
  | CancelTask (index : Nat)
  | register (c : AddCall)
deriving DecidableEq, Repr

/-- Execution of one scheduler call of a host function body; `now` is the reading of
`millis()` in `addTask` when the call is a registration. -/
def HostCall.exec (w now : Nat) (s : TaskMe) : HostCall → TaskMe
  | .CancelTask index => s.CancelTask index
  | .register c => (s.register w now c).1

/-- Execution of the scheduler calls of a host function body, one after the other; the call
at position `k` of the body, counted from `first`, sees the clock reading `reading k`. -/
def HostCall.execBody (w : Nat) (reading : Nat → Nat) : Nat → List HostCall → TaskMe → TaskMe
  | _, [], s => s
  | first, c :: body, s =>
    HostCall.execBody w reading (first + 1) body (HostCall.exec w (reading first) s c)

/-- Whether a host function body deletes the task object held by the occupied slot `index`:
registration never overwrites an occupied slot, so it does exactly when it cancels `index`. -/
def HostCall.deletes (index : Nat) (body : List HostCall) : Bool :=
  body.any (fun c => decide (c = HostCall.CancelTask index))

/-- An invocation of a host function `f` by the scheduler: through the `action` field or
through the `callback` field of the task in slot `index`. -/
inductive Event where
  | action (index f : Nat)
  | callback (index f : Nat)
deriving DecidableEq, Repr

/-- The slot an event belongs to. -/
def Event.index : Event → Nat
  | .action index _ => index
  | .callback index _ => index

/-- The readings of `millis()` during one `Update` pass, one for every place the pass can
call it from.  A pass reaches the places in a fixed order, slot after slot: the due test of
slot 0, the body of its action, its `rearmTask`, the body of its callback, the due test of
slot 1, and so on; and it reaches each place at most once.  So every sequence of readings
the clock can give in a pass is one `Clock`.  Nothing relates the readings to each other:
what is proved for every `Clock` holds however the clock advances or wraps. -/
structure Clock where
  /-- The reading `currentMillis` that `updateTask` takes for the task of slot `index`. -/
  check : Nat → Nat
  /-- The reading that `rearmTask` takes for the task of slot `index`, after the action of
  the task has run. -/
  rearm : Nat → Nat
  /-- The reading that the scheduler call at position `k` of the body of a host function
  takes, the function being invoked as the event says. -/
  inBody : Event → Nat → Nat

/-- The clock of a pass during which `millis()` reads `now` at every call. -/
def Clock.const (now : Nat) : Clock :=
  { check := fun _ => now, rearm := fun _ => now, inBody := fun _ _ => now }

/-- The clock of a pass during which time passes: `updateTask` reads `now + 2 * d * index`
for slot `index`, and the host functions invoked for that slot and `rearmTask` read `d`
more than that.  The readings do not decrease in the order in which a pass takes them. -/
def Clock.ticking (now d : Nat) : Clock :=
  { check := fun index => now + 2 * d * index
    rearm := fun index => now + 2 * d * index + d
    inBody := fun e _ => now + 2 * d * e.index + d }

/-- The scheduler together with the record of the host functions it has invoked so far,
oldest first. -/
structure World where
  sched : TaskMe
  trace : List Event
deriving DecidableEq, Repr

/-- The call `f()` of a host function: it is recorded, then its body runs. -/
def World.invoke (host : Nat → List HostCall) (w : Nat) (clock : Clock) (W : World) (e : Event)
    (f : Nat) : World :=
  { sched := HostCall.execBody w (clock.inBody e) 0 (host f) W.sched
    trace := W.trace ++ [e] }

/-- The assignments of `rearmTask` made on the task object of slot `index`. -/
def World.store (W : World) (index : Nat) (task : Task) : World :=
  { W with sched := { W.sched with _tasks := W.sched._tasks.set index (some task) } }

/-- The private `processTask(task)`, `task` being the pointer held by slot `index`.
The result is `none` when the call has undefined behaviour: `task->action()` deleted the
object `task` points to, and the function goes on to read `task->repetitions`.  The calls
of `rearmTask` come after `task->action()` and take their own reading of `millis()`. -/
def TaskMe.processTask (host : Nat → List HostCall) (w : Nat) (clock : Clock) (index : Nat)
    (W : World) : Option (Bool × World) :=
  match W.sched.slot index with
  | none => none
  | some task =>
    let afterAction : Option World :=
      match task.action with
      | none => some W
      | some f =>
        if HostCall.deletes index (host f) then none
        else some (W.invoke host w clock (Event.action index f) f)
    match afterAction with
    | none => none
    | some W1 =>
      if task.repetitions = 1 then some (true, W1)
      else if task.repetitions > 1 then
        some (false, W1.store index
          (TaskMe.rearmTask w (clock.rearm index) task
            (if task.alternateAction = none then task.action else task.alternateAction)
            (if task.alternateAction = none then none else task.action)
            (task.repetitions - 1)))
      else if task.repetitions = 0 then
        some (false, W1.store index
          (TaskMe.rearmTask w (clock.rearm index) task
            (if task.alternateAction = none then task.action else task.alternateAction)
            (if task.alternateAction = none then none else task.action)
            0))
      else some (false, W1)

/-- The private `updateTask(task)`, `task` being the pointer held by slot `index`: it reads
`millis()` and compares the reading with the deadline. -/
def TaskMe.updateTask (host : Nat → List HostCall) (w : Nat) (clock : Clock) (index : Nat)
    (W : World) : Option (Bool × World) :=
  match W.sched.slot index with
  | none => none
  | some task =>
    if clock.check index ≥ task.trigger then TaskMe.processTask host w clock index W
    else some (false, W)

/-- The body of the loop of `Update` at `index`. -/
def TaskMe.updateSlot (host : Nat → List HostCall) (w : Nat) (clock : Clock) (W : World)
    (index : Nat) : Option World :=
  match W.sched.slot index with
  | none => some W
  | some _ =>
    match TaskMe.updateTask host w clock index W with
    | none => none
    | some (finished, W1) =>
      if finished then
        match W1.sched.slot index with
        | none => none
        | some task =>
          let W2 : World :=
            match task.callback with
            | none => W1
            | some f => W1.invoke host w clock (Event.callback index f) f
          some { W2 with sched := W2.sched.removeTask index }
      else some W1

/-- The public `Update()`: the loop over `index = 0, ..., _capacity - 1`. -/
def TaskMe.Update (host : Nat → List HostCall) (w : Nat) (clock : Clock) (W : World) :
    Option World :=
  (List.range W.sched._capacity).foldlM (TaskMe.updateSlot host w clock) W

/-- A call of a public operation by the main program: a registration with the reading of
`millis()` in `addTask`, an `Update` pass with the readings of `millis()` during the pass,
or a `CancelTask`. -/
inductive Op where
  | register (now : Nat) (c : AddCall)
  | Update (clock : Clock)
  | CancelTask (index : Nat)

/-- Execution of one public operation. -/
def World.step (host : Nat → List HostCall) (w : Nat) (W : World) : Op → Option World
  | .register now c => some { W with sched := (W.sched.register w now c).1 }
  | .Update clock => TaskMe.Update host w clock W
  | .CancelTask index => some { W with sched := W.sched.CancelTask index }

/-- Execution of a sequence of public operations. -/
def World.run (host : Nat → List HostCall) (w : Nat) (W : World) (ops : List Op) : Option World :=
  ops.foldlM (World.step host w) W

/-- A freshly constructed scheduler, nothing invoked yet. -/
def World.new (capacity : Nat) : World :=
  { sched := TaskMe.new capacity, trace := [] }

/-- Host functions that do not touch the scheduler. -/
def inert : Nat → List HostCall := fun _ => []

/-- The number of occupied (non-null) slots of the table. -/
def TaskMe.occupied (s : TaskMe) : Nat := s._tasks.countP Option.isSome

/-- The shape of a state of the class: the array has `_capacity` entries, and `_capacity`
and `_count` are `uint8_t` values. -/
def TaskMe.Valid (s : TaskMe) : Prop :=
  s._tasks.length = s._capacity ∧ s._capacity < 256 ∧ s._count < 256

/-- A valid state whose `_count` is the number of occupied slots. -/
def TaskMe.Consistent (s : TaskMe) : Prop :=
  s.Valid ∧ s._count = s.occupied

/-- The `time` argument a registration call passes to `addTask`. -/
def AddCall.time : AddCall → Int
  | .AddDelay time _ => time
  | .AddSingle time _ => time
  | .AddSingle_callback time _ _ => time
  | .AddRepetitive time _ _ => time
  | .AddRepetitive_callback time _ _ _ => time
  | .AddContinuous time _ => time
  | .AddContinuous_callback time _ _ => time
  | .AddAlternant time _ _ _ => time
  | .AddAlternant_callback time _ _ _ _ => time
  | .AddAlternantContinuous time _ _ => time
  | .AddAlternantContinuous_callback time _ _ _ => time

/-- The `action` argument a registration call passes to `addTask`. -/
def AddCall.action : AddCall → Action
  | .AddDelay _ _ => none
  | .AddSingle _ action => action
  | .AddSingle_callback _ action _ => action
  | .AddRepetitive _ action _ => action
  | .AddRepetitive_callback _ action _ _ => action
  | .AddContinuous _ action => action
  | .AddContinuous_callback _ action _ => action
  | .AddAlternant _ action _ _ => action
  | .AddAlternant_callback _ action _ _ _ => action
  | .AddAlternantContinuous _ action _ => action
  | .AddAlternantContinuous_callback _ action _ _ => action

/-- The `alternateAction` argument a registration call passes to `addTask`. -/
def AddCall.alternateAction : AddCall → Action
  | .AddAlternant _ _ alternateAction _ => alternateAction
  | .AddAlternant_callback _ _ alternateAction _ _ => alternateAction
  | .AddAlternantContinuous _ _ alternateAction => alternateAction
  | .AddAlternantContinuous_callback _ _ alternateAction _ => alternateAction
  | _ => none

/-- The `repetitions` argument a registration call passes to `addTask`. -/
def AddCall.repetitions : AddCall → Nat
  | .AddDelay _ _ => 1
  | .AddSingle _ _ => 1
  | .AddSingle_callback _ _ _ => 1
  | .AddRepetitive _ _ repetitions => repetitions
  | .AddRepetitive_callback _ _ repetitions _ => repetitions
  | .AddAlternant _ _ _ repetitions => repetitions
  | .AddAlternant_callback _ _ _ repetitions _ => repetitions
  | _ => 0

/-- The `callback` argument a registration call passes to `addTask`. -/
def AddCall.callback : AddCall → Action
  | .AddDelay _ callback => callback
  | .AddSingle_callback _ _ callback => callback
  | .AddRepetitive_callback _ _ _ callback => callback
  | .AddContinuous_callback _ _ callback => callback
  | .AddAlternant_callback _ _ _ _ callback => callback
  | .AddAlternantContinuous_callback _ _ _ callback => callback
  | _ => none

/-- The events of one call through the `action` field of the task in slot `index`:
none when the pointer is null. -/
def actionEvents (index : Nat) : Action → List Event
  | none => []
  | some f => [Event.action index f]

/-- The events of one call through the `callback` field of the task in slot `index`:
none when the pointer is null. -/
def callbackEvents (index : Nat) : Action → List Event
  | none => []
  | some f => [Event.callback index f]

/-- The record a task has after `processTask` rearmed it, `now` being the reading of
`millis()` in `rearmTask`. -/
def Task.rearmed (w now : Nat) (t : Task) : Task :=
  TaskMe.rearmTask w now t
    (if t.alternateAction = none then t.action else t.alternateAction)
    (if t.alternateAction = none then none else t.action)
    (t.repetitions - 1)

/-- The content of a slot after one `Update` pass, when host functions do not touch the
scheduler: `check` is the reading of `millis()` in `updateTask` for the slot, `rearm` the
reading in `rearmTask`. -/
def passSlot (w check rearm : Nat) : Option Task → Option Task
  | none => none
  | some t =>
    if check ≥ t.trigger then
      if t.repetitions = 1 then none else some (t.rearmed w rearm)
    else some t

/-- The host functions one `Update` pass invokes for slot `index`, `check` being the
reading of `millis()` in `updateTask` for the slot. -/
def passEvents (check index : Nat) : Option Task → List Event
  | none => []
  | some t =>
    if check ≥ t.trigger then
      actionEvents index t.action ++
        (if t.repetitions = 1 then callbackEvents index t.callback else [])
    else []

/-- Whether one `Update` pass finishes and removes the task of a slot, `check` being the
reading of `millis()` in `updateTask` for the slot. -/
def passFinished (check : Nat) : Option Task → Bool
  | none => false
  | some t => decide (check ≥ t.trigger ∧ t.repetitions = 1)

/-- The content of slot `index` after successive `Update` passes with the given clocks, when
host functions do not touch the scheduler. -/
def passes (w index : Nat) : List Clock → Option Task → Option Task
  | [], o => o
  | clock :: clocks, o =>
    passes w index clocks (passSlot w (clock.check index) (clock.rearm index) o)

/-- The host functions successive `Update` passes with the given clocks invoke for slot
`index`, when host functions do not touch the scheduler. -/
def passesEvents (w index : Nat) : List Clock → Option Task → List Event
  | [], _ => []
  | clock :: clocks, o =>
    passEvents (clock.check index) index o ++
      passesEvents w index clocks (passSlot w (clock.check index) (clock.rearm index) o)

/-- The events of a trace that belong to slot `index`. -/
def eventsOf (index : Nat) (trace : List Event) : List Event :=
  trace.filter (fun e => decide (e.index = index))

/-- The `action` field of a task after `k` rearms, computed from its `action` and
`alternateAction` fields by the assignments `processTask` passes to `rearmTask`. -/
def actionAt : Action → Action → Nat → Action
  | a, _, 0 => a
  | a, b, k + 1 => actionAt (if b = none then a else b) (if b = none then none else a) k

/-- The host function of an invocation through the `action` field. -/
def Event.fired : Event → Option Nat
  | .action _ f => some f
  | .callback _ _ => none

/-- The host functions invoked through the `action` field of the task in slot `index`, in
the order of invocation. -/
def firings (index : Nat) (trace : List Event) : List Nat :=
  (eventsOf index trace).filterMap Event.fired

/-- The calling discipline of the main program that cancels only indices that are out of
range or currently occupied: whether it admits the call `op` in the state `W`. -/
def World.permits (W : World) : Op → Bool
  | .CancelTask index => decide (index ≥ W.sched.Capacity) || (W.sched.slot index).isSome
  | _ => true

/-- Whether a sequence of public operations, run from `W`, keeps to that discipline at
every call. -/
def World.disciplined (host : Nat → List HostCall) (w : Nat) : World → List Op → Bool
  | _, [] => true
  | W, op :: ops =>
    W.permits op &&
      (match World.step host w W op with
       | some W1 => World.disciplined host w W1 ops
       | none => true)

/-- The progress of a task with the two actions `X` and `Y` that was registered in slot `i`
with `N` repetitions (`N = 0`: continuous).  Either the task is in its slot and has fired
`m` times so far, `X, Y, X, ...`, its `action` field holding the function of the next firing
and its `repetitions` field the number of firings left; or it has fired `N` times,
`X, Y, X, ...`, and was removed, and whatever the slot fired after that, `rest`, belongs
to a later task. -/
def Alternating (i X Y N : Nat) (W : World) : Prop :=
  (∃ t m, W.sched.slot i = some t ∧
      firings i W.trace = (List.range m).map (fun k => if k % 2 = 0 then X else Y) ∧
      t.action = some (if m % 2 = 0 then X else Y) ∧
      t.alternateAction = some (if m % 2 = 0 then Y else X) ∧
      (N = 0 → t.repetitions = 0) ∧ (N ≠ 0 → t.repetitions + m = N ∧ 1 ≤ t.repetitions)) ∨
  (N ≠ 0 ∧ ∃ rest,
    firings i W.trace = (List.range N).map (fun k => if k % 2 = 0 then X else Y) ++ rest)

/-! ## Theorems -/

/-! ### Reading and writing slots -/

theorem getD_set_none (l : List (Option Task)) (i j : Nat) (x : Option Task) :
    (l.set i x).getD j none = if i = j ∧ i < l.length then x else l.getD j none := by
  simp only [List.getD_eq_getElem?_getD, List.getElem?_set]
  by_cases hij : i = j
  · by_cases hlt : i < l.length
    · subst hij
      simp [hlt]
    · subst hij
      simp [hlt, List.getElem?_eq_none (Nat.le_of_not_lt hlt)]
  · simp [hij]

theorem slot_new (capacity index : Nat) : (TaskMe.new capacity).slot index = none := by
  simp only [TaskMe.slot, TaskMe.new, List.getD_eq_getElem?_getD, List.getElem?_replicate]
  split <;> rfl

theorem valid_new (capacity : Nat) : (TaskMe.new capacity).Valid := by
  refine ⟨by simp [TaskMe.new], ?_, by simp [TaskMe.new]⟩
  exact Nat.mod_lt _ (by decide)

theorem firstFree_eq_some (s : TaskMe) (i : Nat) :
    s.firstFree = some i ↔
      s.slot i = none ∧ i < s._capacity ∧ ∀ j, j < i → s.slot j ≠ none := by
  unfold TaskMe.firstFree
  rw [List.find?_range_eq_some]
  simp only [List.mem_range, Option.isNone_iff_eq_none, Bool.not_eq_true', ne_eq]
  constructor
  · rintro ⟨h1, h2, h3⟩
    refine ⟨h1, h2, fun j hj hn => ?_⟩
    have := h3 j hj
    simp [hn] at this
  · rintro ⟨h1, h2, h3⟩
    refine ⟨h1, h2, fun j hj => ?_⟩
    have := h3 j hj
    cases hs : s.slot j
    · exact absurd hs this
    · rfl

theorem firstFree_eq_none (s : TaskMe) :
    s.firstFree = none ↔ ∀ j, j < s._capacity → s.slot j ≠ none := by
  unfold TaskMe.firstFree
  rw [List.find?_range_eq_none]
  constructor
  · intro h j hj hn
    have := h j hj
    simp [hn] at this
  · intro h j hj
    have := h j hj
    cases hs : s.slot j
    · exact absurd hs this
    · rfl

theorem firstFree_of_free (s : TaskMe) (hfree : ∃ j, j < s._capacity ∧ s.slot j = none) :
    ∃ i, s.firstFree = some i := by
  cases h : s.firstFree with
  | some i => exact ⟨i, rfl⟩
  | none =>
    obtain ⟨j, hj, hn⟩ := hfree
    exact absurd hn ((firstFree_eq_none s).1 h j hj)

/-- The effect of a successful `addTask`, in terms of the scan result. -/
theorem addTask_of_firstFree (s : TaskMe) (w now : Nat) (time : Int)
    (action alternateAction : Action) (repetitions : Nat) (callback : Action) (i : Nat)
    (hfull : s.IsFull = false) (hi : s.firstFree = some i) :
    s.addTask w now time action alternateAction repetitions callback =
      ({ s with
          _tasks := s._tasks.set i (some
            { time := toULong w time
              trigger := (now + toULong w time) % 2 ^ w
              action := action
              alternateAction := alternateAction
              repetitions := repetitions
              callback := callback })
          _count := (s._count + 1) % 256 }, i) := by
  simp [TaskMe.addTask, hfull, hi]

theorem toULong_of_nonneg (w : Nat) (time : Int) (h0 : 0 ≤ time)
    (hlt : time < ((2 ^ w : Nat) : Int)) : ((toULong w time : Nat) : Int) = time := by
  unfold toULong
  rw [Int.emod_eq_of_lt h0 hlt]
  exact Int.toNat_of_nonneg h0

theorem set_getD_self (l : List (Option Task)) (i : Nat) : l.set i (l.getD i none) = l := by
  induction l generalizing i with
  | nil => rfl
  | cons x l ih =>
    cases i with
    | zero => rfl
    | succ i =>
      have h := ih i
      simp only [List.getD_eq_getElem?_getD] at h
      simp [h]

theorem register_eq_addTask (s : TaskMe) (w now : Nat) (c : AddCall) :
    s.register w now c =
      s.addTask w now c.time c.action c.alternateAction c.repetitions c.callback := by
  cases c <;> rfl

/-! ### One `Update` pass with host functions that do not touch the scheduler -/

theorem invoke_inert (host : Nat → List HostCall) (hinert : ∀ f, host f = []) (w : Nat)
    (clock : Clock) (W : World) (e : Event) (f : Nat) :
    W.invoke host w clock e f = { sched := W.sched, trace := W.trace ++ [e] } := by
  simp [World.invoke, hinert f, HostCall.execBody]

theorem processTask_inert (host : Nat → List HostCall) (hinert : ∀ f, host f = [])
    (w : Nat) (clock : Clock) (index : Nat) (W : World) (t : Task)
    (hslot : W.sched.slot index = some t) :
    TaskMe.processTask host w clock index W =
      some (decide (t.repetitions = 1),
        { sched :=
            { W.sched with
              _tasks := W.sched._tasks.set index
                (if t.repetitions = 1 then some t else some (t.rearmed w (clock.rearm index))) }
          trace := W.trace ++ actionEvents index t.action }) := by
  have hself : W.sched._tasks.set index (some t) = W.sched._tasks := by
    have := set_getD_self W.sched._tasks index
    rw [show W.sched._tasks.getD index none = some t from hslot] at this
    exact this
  unfold TaskMe.processTask
  rw [hslot]
  cases hact : t.action with
  | none =>
    by_cases h1 : t.repetitions = 1
    · simp [h1, actionEvents, hself, hact]
    · by_cases h2 : t.repetitions > 1
      · simp [h1, h2, actionEvents, World.store, Task.rearmed, hact]
      · have h0 : t.repetitions = 0 := by omega
        simp [h0, actionEvents, World.store, Task.rearmed, hact]
  | some f =>
    by_cases h1 : t.repetitions = 1
    · simp [h1, actionEvents, hself, hact, HostCall.deletes, hinert f, invoke_inert host hinert]
    · by_cases h2 : t.repetitions > 1
      · simp [h1, h2, actionEvents, World.store, Task.rearmed, hact, HostCall.deletes, hinert f,
          invoke_inert host hinert]
      · have h0 : t.repetitions = 0 := by omega
        simp [h0, actionEvents, World.store, Task.rearmed, hact, HostCall.deletes, hinert f,
          invoke_inert host hinert]

theorem set_slot_self (s : TaskMe) (index : Nat) (o : Option Task) (h : s.slot index = o) :
    s._tasks.set index o = s._tasks := by
  rw [← h]
  exact set_getD_self s._tasks index

theorem updateSlot_inert (host : Nat → List HostCall) (hinert : ∀ f, host f = [])
    (w : Nat) (clock : Clock) (W : World) (index : Nat) (hidx : index < W.sched._capacity) :
    TaskMe.updateSlot host w clock W index =
      some
        { sched :=
            { _tasks := W.sched._tasks.set index
                (passSlot w (clock.check index) (clock.rearm index) (W.sched.slot index))
              _capacity := W.sched._capacity
              _count :=
                if passFinished (clock.check index) (W.sched.slot index) = true then
                  (W.sched._count + 255) % 256
                else W.sched._count }
          trace := W.trace ++ passEvents (clock.check index) index (W.sched.slot index) } := by
  cases hslot : W.sched.slot index with
  | none =>
    simp [TaskMe.updateSlot, hslot, passSlot, passFinished, passEvents,
      set_slot_self W.sched index none hslot]
  | some t =>
    by_cases hdue : clock.check index ≥ t.trigger
    · have hproc := processTask_inert host hinert w clock index W t hslot
      have hupd : TaskMe.updateTask host w clock index W
          = TaskMe.processTask host w clock index W := by
        simp only [TaskMe.updateTask, hslot, hdue, if_true]
      by_cases h1 : t.repetitions = 1
      · have hself := set_slot_self W.sched index (some t) hslot
        have hnot : ¬ index ≥ W.sched._capacity := by omega
        rw [h1] at hproc
        simp only [decide_True, if_true, hself] at hproc
        have hread : TaskMe.slot
            { _tasks := W.sched._tasks, _capacity := W.sched._capacity, _count := W.sched._count }
            index = some t := hslot
        cases hcb : t.callback with
        | none =>
          simp only [TaskMe.updateSlot, hslot, hupd, hproc, if_true, hread, hcb,
            TaskMe.removeTask, hnot, if_false, passSlot, passFinished, passEvents, hdue, h1,
            callbackEvents, decide_True, and_self, List.append_nil]
        | some f =>
          simp only [TaskMe.updateSlot, hslot, hupd, hproc, if_true, hread, hcb,
            TaskMe.removeTask, hnot, if_false, passSlot, passFinished, passEvents, hdue, h1,
            callbackEvents, decide_True, and_self, invoke_inert host hinert, List.append_assoc]
      · simp [TaskMe.updateSlot, hupd, hslot, hdue, hproc, h1, passSlot,
          passFinished, passEvents]
    · simp [TaskMe.updateSlot, TaskMe.updateTask, hslot, hdue, passSlot, passFinished,
        passEvents, set_slot_self W.sched index (some t) hslot]

theorem passSlot_of_finished (w check rearm : Nat) (o : Option Task)
    (h : passFinished check o = true) :
    o.isSome = true ∧ passSlot w check rearm o = none := by
  cases o with
  | none => simp [passFinished] at h
  | some t =>
    simp only [passFinished, decide_eq_true_eq] at h
    simp [passSlot, h.1, h.2]

theorem passSlot_of_not_finished (w check rearm : Nat) (o : Option Task)
    (h : passFinished check o = false) : (passSlot w check rearm o).isSome = o.isSome := by
  cases o with
  | none => rfl
  | some t =>
    simp only [passFinished, decide_eq_false_iff_not, not_and] at h
    by_cases hdue : check ≥ t.trigger
    · simp [passSlot, hdue, h hdue]
    · simp [passSlot, hdue]

theorem slot_eq_getElem (s : TaskMe) (index : Nat) (h : index < s._tasks.length) :
    s.slot index = s._tasks[index] := by
  simp [TaskMe.slot, List.getD_eq_getElem?_getD, List.getElem?_eq_getElem h]

/-- Writing one slot keeps the count consistent when the count is decremented exactly when
an occupied slot becomes empty. -/
theorem consistent_set (s : TaskMe) (hs : s.Consistent) (index : Nat)
    (hidx : index < s._capacity) (o : Option Task) (fin : Bool)
    (hfin : fin = true → (s.slot index).isSome = true ∧ o = none)
    (hnfin : fin = false → o.isSome = (s.slot index).isSome) :
    TaskMe.Consistent
      { _tasks := s._tasks.set index o
        _capacity := s._capacity
        _count := if fin = true then (s._count + 255) % 256 else s._count } := by
  obtain ⟨⟨hlen, hcap, hcnt⟩, hocc⟩ := hs
  have hlt : index < s._tasks.length := by omega
  have hset := List.countP_set Option.isSome s._tasks index o hlt
  have hle : (if (s._tasks[index]).isSome = true then 1 else 0) ≤ s._tasks.countP Option.isSome :=
    List.boole_getElem_le_countP Option.isSome s._tasks index hlt
  have hslot := slot_eq_getElem s index hlt
  unfold TaskMe.occupied at hocc
  cases fin with
  | true =>
    obtain ⟨hsome, ho⟩ := hfin rfl
    rw [hslot] at hsome
    subst ho
    simp only [hsome, if_true] at hset hle
    refine ⟨⟨by simp [hlen], hcap, Nat.mod_lt _ (by decide)⟩, ?_⟩
    simp only [TaskMe.occupied, if_true, hset]
    simp only [Option.isSome_none, Bool.false_eq_true, if_false]
    omega
  | false =>
    have ho := hnfin rfl
    rw [hslot] at ho
    refine ⟨⟨by simp [hlen], hcap, by simpa using hcnt⟩, ?_⟩
    simp only [TaskMe.occupied, hset, ho]
    simp only [Bool.false_eq_true, if_false]
    omega

theorem count_after_decrement (c c1 F : Nat) (fin : Bool) (h : (c1 + F) % 256 = c % 256) :
    ((if fin = true then (c1 + 255) % 256 else c1) + (F + if fin = true then 1 else 0)) % 256
      = c % 256 := by
  cases fin with
  | true =>
    simp only [if_true]
    omega
  | false =>
    simp only [Bool.false_eq_true, if_false, Nat.add_zero]
    exact h

theorem Update_upto_inert (host : Nat → List HostCall) (hinert : ∀ f, host f = [])
    (w : Nat) (clock : Clock) (W : World) (n : Nat) (hn : n ≤ W.sched._capacity) :
    ∃ Wn, (List.range n).foldlM (TaskMe.updateSlot host w clock) W = some Wn ∧
      Wn.sched._capacity = W.sched._capacity ∧
      Wn.sched._tasks.length = W.sched._tasks.length ∧
      (∀ j, Wn.sched.slot j =
        if j < n ∧ j < W.sched._tasks.length then
          passSlot w (clock.check j) (clock.rearm j) (W.sched.slot j)
        else W.sched.slot j) ∧
      Wn.trace = W.trace ++
        (List.range n).flatMap (fun j => passEvents (clock.check j) j (W.sched.slot j)) ∧
      (W.sched.Consistent → Wn.sched.Consistent) ∧
      (Wn.sched._count +
          (List.range n).countP (fun j => passFinished (clock.check j) (W.sched.slot j))) % 256
        = W.sched._count % 256 ∧
      (W.sched._count < 256 → Wn.sched._count < 256) := by
  induction n with
  | zero =>
    refine ⟨W, rfl, rfl, rfl, fun j => by simp, by simp, fun h => h, by simp, fun h => h⟩
  | succ n ih =>
    obtain ⟨Wn, hrun, hcap, hlen, hslots, htrace, hcons, hcount, hbound⟩ := ih (by omega)
    have hidx : n < Wn.sched._capacity := by omega
    have hstep := updateSlot_inert host hinert w clock Wn n hidx
    have hsame : Wn.sched.slot n = W.sched.slot n := by
      rw [hslots n]; simp
    rw [hsame] at hstep
    refine ⟨{ sched :=
                { _tasks := Wn.sched._tasks.set n
                    (passSlot w (clock.check n) (clock.rearm n) (W.sched.slot n))
                  _capacity := Wn.sched._capacity
                  _count :=
                    if passFinished (clock.check n) (W.sched.slot n) = true then
                      (Wn.sched._count + 255) % 256
                    else Wn.sched._count }
              trace := Wn.trace ++ passEvents (clock.check n) n (W.sched.slot n) },
      ?_, ?_, ?_, ?_, ?_, ?_, ?_, ?_⟩
    · rw [List.range_succ, List.foldlM_append, hrun]
      simp only [List.foldlM, Option.bind_eq_bind, Option.some_bind, hstep]
      rfl
    · exact hcap
    · simp [hlen]
    · intro j
      simp only [TaskMe.slot]
      rw [getD_set_none]
      by_cases hjn : n = j
      · subst hjn
        by_cases hl : n < W.sched._tasks.length
        · simp [hl, hlen]
        · have h1 := hslots n
          simp only [hl, and_false, if_false] at h1
          simp only [TaskMe.slot] at h1
          simp only [hl, hlen, and_false, if_false, h1]
      · have h1 := hslots j
        simp only [TaskMe.slot] at h1
        rw [if_neg (fun h => hjn h.1), h1]
        by_cases hj : j < n
        · have : j < n + 1 := by omega
          simp [hj, this]
        · have : ¬ j < n + 1 := by omega
          simp [hj, this]
    · simp only [List.range_succ, List.flatMap_append, List.flatMap_singleton, htrace,
        List.append_assoc]
    · intro hW
      have hWn := hcons hW
      refine consistent_set Wn.sched hWn n hidx _ _ ?_ ?_
      · intro hf
        have := passSlot_of_finished w (clock.check n) (clock.rearm n) _ hf
        rw [hsame]
        exact this
      · intro hf
        have : passFinished (clock.check n) (W.sched.slot n) = false := by
          cases h : passFinished (clock.check n) (W.sched.slot n) with
          | true => simp [h] at hf
          | false => rfl
        rw [hsame]
        exact passSlot_of_not_finished w (clock.check n) (clock.rearm n) _ this
    · rw [List.range_succ, List.countP_append, List.countP_singleton]
      exact count_after_decrement _ _ _ _ hcount
    · intro hW
      have := hbound hW
      show (if passFinished (clock.check n) (W.sched.slot n) = true then
        (Wn.sched._count + 255) % 256 else Wn.sched._count) < 256
      split
      · exact Nat.mod_lt _ (by decide)
      · exact this

theorem eventsOf_append (i : Nat) (l₁ l₂ : List Event) :
    eventsOf i (l₁ ++ l₂) = eventsOf i l₁ ++ eventsOf i l₂ := by
  simp [eventsOf]

theorem index_of_mem_actionEvents (j : Nat) (a : Action) (e : Event)
    (he : e ∈ actionEvents j a) : e.index = j := by
  cases a with
  | none => simp [actionEvents] at he
  | some f =>
    simp only [actionEvents, List.mem_singleton] at he
    subst he; rfl

theorem index_of_mem_callbackEvents (j : Nat) (a : Action) (e : Event)
    (he : e ∈ callbackEvents j a) : e.index = j := by
  cases a with
  | none => simp [callbackEvents] at he
  | some f =>
    simp only [callbackEvents, List.mem_singleton] at he
    subst he; rfl

theorem index_of_mem_passEvents (check j : Nat) (o : Option Task) (e : Event)
    (he : e ∈ passEvents check j o) : e.index = j := by
  cases o with
  | none => simp [passEvents] at he
  | some t =>
    by_cases hdue : check ≥ t.trigger
    · simp only [passEvents, hdue, if_true, List.mem_append] at he
      rcases he with he | he
      · exact index_of_mem_actionEvents j _ e he
      · by_cases h1 : t.repetitions = 1
        · simp only [h1, if_true] at he
          exact index_of_mem_callbackEvents j _ e he
        · simp [h1] at he
    · simp [passEvents, hdue] at he

theorem eventsOf_passEvents (check i j : Nat) (o : Option Task) :
    eventsOf i (passEvents check j o) = if j = i then passEvents check j o else [] := by
  by_cases h : j = i
  · rw [if_pos h]
    unfold eventsOf
    rw [List.filter_eq_self]
    intro e he
    simp [index_of_mem_passEvents check j o e he, h]
  · rw [if_neg h]
    unfold eventsOf
    rw [List.filter_eq_nil_iff]
    intro e he
    simp [index_of_mem_passEvents check j o e he, h]

theorem eventsOf_flatMap_range (check : Nat → Nat) (i n : Nat) (f : Nat → Option Task) :
    eventsOf i ((List.range n).flatMap (fun j => passEvents (check j) j (f j))) =
      if i < n then passEvents (check i) i (f i) else [] := by
  induction n with
  | zero => simp [eventsOf]
  | succ n ih =>
    rw [List.range_succ, List.flatMap_append, eventsOf_append, ih, List.flatMap_singleton,
      eventsOf_passEvents]
    by_cases h1 : i < n
    · have h2 : n ≠ i := by omega
      have h3 : i < n + 1 := by omega
      simp [h1, h2, h3]
    · by_cases h2 : n = i
      · subst h2; simp
      · have h3 : ¬ i < n + 1 := by omega
        simp [h1, h2, h3]

theorem slot_of_length_le (s : TaskMe) (j : Nat) (h : s._tasks.length ≤ j) : s.slot j = none := by
  simp [TaskMe.slot, List.getD_eq_getElem?_getD, List.getElem?_eq_none h]

/-- One `Update` pass with host functions that do not touch the scheduler: it returns, and
acts on every slot separately; `_count` is decremented, modulo 256, once for every slot that
finishes. -/
theorem Update_inert (host : Nat → List HostCall) (hinert : ∀ f, host f = [])
    (w : Nat) (clock : Clock) (W : World) (hlen : W.sched._tasks.length = W.sched._capacity) :
    ∃ W1, TaskMe.Update host w clock W = some W1 ∧
      W1.sched._capacity = W.sched._capacity ∧
      W1.sched._tasks.length = W1.sched._capacity ∧
      (∀ j, W1.sched.slot j = passSlot w (clock.check j) (clock.rearm j) (W.sched.slot j)) ∧
      W1.trace = W.trace ++
        (List.range W.sched._capacity).flatMap
          (fun j => passEvents (clock.check j) j (W.sched.slot j)) ∧
      (∀ i, eventsOf i W1.trace =
        eventsOf i W.trace ++ passEvents (clock.check i) i (W.sched.slot i)) ∧
      (W.sched.Consistent → W1.sched.Consistent) ∧
      (W1.sched._count +
          (List.range W.sched._capacity).countP
            (fun j => passFinished (clock.check j) (W.sched.slot j))) % 256
        = W.sched._count % 256 ∧
      (W.sched._count < 256 → W1.sched._count < 256) := by
  obtain ⟨W1, hrun, hcap, hl, hslots, htrace, hcons, hcount, hbound⟩ :=
    Update_upto_inert host hinert w clock W W.sched._capacity (Nat.le_refl _)
  refine ⟨W1, hrun, hcap, by omega, ?_, htrace, ?_, hcons, hcount, hbound⟩
  · intro j
    rw [hslots j]
    by_cases hj : j < W.sched._tasks.length
    · have : j < W.sched._capacity := by omega
      simp [hj, this]
    · have hnone := slot_of_length_le W.sched j (by omega)
      simp [hj, hnone, passSlot]
  · intro i
    rw [htrace, eventsOf_append, eventsOf_flatMap_range clock.check]
    by_cases hi : i < W.sched._capacity
    · simp [hi]
    · have hnone := slot_of_length_le W.sched i (by omega)
      simp [hi, hnone, passEvents]

theorem run_cons (host : Nat → List HostCall) (w : Nat) (W : World) (op : Op) (ops : List Op) :
    World.run host w W (op :: ops) =
      (World.step host w W op).bind (fun W1 => World.run host w W1 ops) := by
  simp [World.run, List.foldlM_cons]

theorem run_nil (host : Nat → List HostCall) (w : Nat) (W : World) :
    World.run host w W [] = some W := rfl

/-- Successive `Update` passes with host functions that do not touch the scheduler. -/
theorem run_updates_inert (host : Nat → List HostCall) (hinert : ∀ f, host f = [])
    (w : Nat) (clocks : List Clock) (W : World)
    (hlen : W.sched._tasks.length = W.sched._capacity) :
    ∃ W1, World.run host w W (clocks.map Op.Update) = some W1 ∧
      W1.sched._capacity = W.sched._capacity ∧
      W1.sched._tasks.length = W1.sched._capacity ∧
      (∀ j, W1.sched.slot j = passes w j clocks (W.sched.slot j)) ∧
      (∀ i, eventsOf i W1.trace =
        eventsOf i W.trace ++ passesEvents w i clocks (W.sched.slot i)) ∧
      (W.sched.Consistent → W1.sched.Consistent) ∧
      (W.sched._count < 256 → W1.sched._count < 256) := by
  induction clocks generalizing W with
  | nil =>
    exact ⟨W, rfl, rfl, hlen, fun j => rfl, fun i => by simp [passesEvents], fun h => h,
      fun h => h⟩
  | cons clock clocks ih =>
    obtain ⟨W1, hup, hcap1, hlen1, hslots1, _, hev1, hcons1, _, hbound1⟩ :=
      Update_inert host hinert w clock W hlen
    obtain ⟨W2, hrun, hcap2, hlen2, hslots2, hev2, hcons2, hbound2⟩ := ih W1 hlen1
    refine ⟨W2, ?_, by omega, hlen2, ?_, ?_, fun h => hcons2 (hcons1 h),
      fun h => hbound2 (hbound1 h)⟩
    · rw [List.map_cons, run_cons]
      simp only [World.step, hup, Option.some_bind, hrun]
    · intro j
      rw [hslots2 j, hslots1 j]
      rfl
    · intro i
      rw [hev2 i, hev1 i, hslots1 i, List.append_assoc]
      rfl

/-! ### Registration and cancellation, slot by slot -/

theorem addTask_cases (s : TaskMe) (w now : Nat) (time : Int) (action alternateAction : Action)
    (repetitions : Nat) (callback : Action) :
    s.addTask w now time action alternateAction repetitions callback = (s, s._count) ∨
      ∃ k, s.firstFree = some k ∧ s.IsFull = false ∧
        s.addTask w now time action alternateAction repetitions callback =
          ({ s with
              _tasks := s._tasks.set k (some
                { time := toULong w time
                  trigger := (now + toULong w time) % 2 ^ w
                  action := action
                  alternateAction := alternateAction
                  repetitions := repetitions
                  callback := callback })
              _count := (s._count + 1) % 256 }, k) := by
  cases hfull : s.IsFull with
  | true => left; simp [TaskMe.addTask, hfull]
  | false =>
    cases hk : s.firstFree with
    | none => left; simp [TaskMe.addTask, hfull, hk]
    | some k =>
      right
      exact ⟨k, rfl, rfl,
        addTask_of_firstFree s w now time action alternateAction repetitions callback k hfull hk⟩

theorem addTask_shape (s : TaskMe) (w now : Nat) (time : Int) (action alternateAction : Action)
    (repetitions : Nat) (callback : Action) :
    (s.addTask w now time action alternateAction repetitions callback).1._tasks.length
        = s._tasks.length ∧
      (s.addTask w now time action alternateAction repetitions callback).1._capacity
        = s._capacity := by
  rcases addTask_cases s w now time action alternateAction repetitions callback with h | ⟨k, _, _, h⟩
  · rw [h]; exact ⟨rfl, rfl⟩
  · rw [h]; exact ⟨by simp, rfl⟩

theorem addTask_slot_of_occupied (s : TaskMe) (w now : Nat) (time : Int)
    (action alternateAction : Action) (repetitions : Nat) (callback : Action) (j : Nat)
    (hj : s.slot j ≠ none) :
    (s.addTask w now time action alternateAction repetitions callback).1.slot j = s.slot j := by
  rcases addTask_cases s w now time action alternateAction repetitions callback with h | ⟨k, hk, _, h⟩
  · rw [h]
  · rw [h]
    have hkj : k ≠ j := by
      intro hkj
      subst hkj
      exact hj ((firstFree_eq_some s k).1 hk).1
    simp only [TaskMe.slot]
    rw [getD_set_none, if_neg (fun h => hkj h.1)]

theorem removeTask_shape (s : TaskMe) (index : Nat) :
    (s.removeTask index)._tasks.length = s._tasks.length ∧
      (s.removeTask index)._capacity = s._capacity := by
  unfold TaskMe.removeTask
  split
  · exact ⟨rfl, rfl⟩
  · exact ⟨by simp, rfl⟩

theorem removeTask_slot_of_ne (s : TaskMe) (index j : Nat) (h : index ≠ j) :
    (s.removeTask index).slot j = s.slot j := by
  unfold TaskMe.removeTask
  split
  · rfl
  · simp only [TaskMe.slot]
    rw [getD_set_none, if_neg (fun h1 => h h1.1)]

theorem removeTask_slot_self (s : TaskMe) (index : Nat) (h : index < s._capacity) :
    (s.removeTask index).slot index = none := by
  unfold TaskMe.removeTask
  rw [if_neg (by omega)]
  simp only [TaskMe.slot]
  rw [getD_set_none]
  split
  · rfl
  · rename_i hn
    have hle : s._tasks.length ≤ index := by
      by_contra hc
      exact hn ⟨rfl, by omega⟩
    exact slot_of_length_le s index hle

/-- The effect of a registration call that finds the scheduler not full and a free slot. -/
theorem register_success (s : TaskMe) (w now : Nat) (c : AddCall)
    (hlen : s._tasks.length = s._capacity) (hfull : s.IsFull = false)
    (hfree : ∃ j, j < s._capacity ∧ s.slot j = none) :
    (s.register w now c).2 < s._capacity ∧ s.slot (s.register w now c).2 = none ∧
      (s.register w now c).1.slot (s.register w now c).2 = some
        { time := toULong w c.time
          trigger := (now + toULong w c.time) % 2 ^ w
          action := c.action
          alternateAction := c.alternateAction
          repetitions := c.repetitions
          callback := c.callback } ∧
      (∀ j, j ≠ (s.register w now c).2 → (s.register w now c).1.slot j = s.slot j) ∧
      (s.register w now c).1._tasks.length = (s.register w now c).1._capacity ∧
      (s.register w now c).1._capacity = s._capacity ∧
      (s.register w now c).1._count = (s._count + 1) % 256 ∧
      (s.register w now c).1._tasks = s._tasks.set (s.register w now c).2 (some
        { time := toULong w c.time
          trigger := (now + toULong w c.time) % 2 ^ w
          action := c.action
          alternateAction := c.alternateAction
          repetitions := c.repetitions
          callback := c.callback }) := by
  obtain ⟨i, hi⟩ := firstFree_of_free s hfree
  obtain ⟨hnone, hlt, _⟩ := (firstFree_eq_some s i).1 hi
  rw [register_eq_addTask,
    addTask_of_firstFree s w now c.time c.action c.alternateAction c.repetitions c.callback i
      hfull hi]
  refine ⟨hlt, hnone, ?_, ?_, ?_, rfl, rfl, rfl⟩
  · simp only [TaskMe.slot]
    rw [getD_set_none, if_pos ⟨rfl, by omega⟩]
  · intro j hj
    simp only [TaskMe.slot]
    rw [getD_set_none, if_neg (fun h => hj h.1.symm)]
  · simp [hlen]

/-- What `CancelTask` does on an in-range index whose slot is empty: the table is left as it
is, and `_count` is decremented modulo 256 all the same, so `Count()` changes. -/
theorem CancelTask_of_empty (s : TaskMe) (index : Nat) (hvalid : s.Valid)
    (hidx : index < s.Capacity) (hslot : s.slot index = none) :
    (s.CancelTask index)._tasks = s._tasks ∧
      (s.CancelTask index).Capacity = s.Capacity ∧
      (s.CancelTask index).Count = (s.Count + 255) % 256 ∧
      (s.CancelTask index).Count ≠ s.Count := by
  obtain ⟨_, _, hcnt⟩ := hvalid
  simp only [TaskMe.Capacity] at hidx
  have hnot : ¬ index ≥ s._capacity := by omega
  have hrem : s.CancelTask index =
      { s with _tasks := s._tasks.set index none, _count := (s._count + 255) % 256 } := by
    simp only [TaskMe.CancelTask, TaskMe.removeTask, hnot, if_false]
  rw [hrem]
  refine ⟨set_slot_self s index none hslot, rfl, rfl, ?_⟩
  show (s._count + 255) % 256 ≠ s._count
  omega

/-- What `CancelTask` does on an in-range index whose slot is occupied: the slot becomes
empty, the other slots are left as they are, and `_count` is decremented modulo 256: by one
when `Count()` is at least 1, to 255 when `Count()` is 0. -/
theorem CancelTask_of_occupied (s : TaskMe) (index : Nat) (t : Task) (hvalid : s.Valid)
    (hidx : index < s.Capacity) (_hslot : s.slot index = some t) :
    (s.CancelTask index).slot index = none ∧
      (∀ j, j ≠ index → (s.CancelTask index).slot j = s.slot j) ∧
      (s.CancelTask index).Capacity = s.Capacity ∧
      (1 ≤ s.Count → (s.CancelTask index).Count + 1 = s.Count) ∧
      (s.Count = 0 → (s.CancelTask index).Count = 255) := by
  obtain ⟨_, _, hcnt⟩ := hvalid
  simp only [TaskMe.Capacity] at hidx
  have hnot : ¬ index ≥ s._capacity := by omega
  refine ⟨removeTask_slot_self s index hidx,
    fun j hj => removeTask_slot_of_ne s index j (fun h => hj h.symm),
    (removeTask_shape s index).2, ?_, ?_⟩
  · intro h1
    simp only [TaskMe.Count] at h1
    simp only [TaskMe.CancelTask, TaskMe.removeTask, hnot, if_false, TaskMe.Count]
    omega
  · intro h0
    simp only [TaskMe.Count] at h0
    simp only [TaskMe.CancelTask, TaskMe.removeTask, hnot, if_false, TaskMe.Count, h0]

/-! ### Tasks with `repetitions == 0` -/

theorem mem_eventsOf (i : Nat) (l : List Event) (e : Event) :
    e ∈ eventsOf i l ↔ e ∈ l ∧ e.index = i := by
  simp [eventsOf]

theorem callback_not_mem_actionEvents (i j f : Nat) (a : Action) :
    Event.callback i f ∉ actionEvents j a := by
  cases a <;> simp [actionEvents]

theorem continuous_step (host : Nat → List HostCall) (hinert : ∀ f, host f = [])
    (w i τ : Nat) (W : World) (op : Op) (hop : op ≠ Op.CancelTask i)
    (hlen : W.sched._tasks.length = W.sched._capacity) (t : Task)
    (hslot : W.sched.slot i = some t) (hrep : t.repetitions = 0) (htime : t.time = τ)
    (hcb : ∀ f, Event.callback i f ∉ W.trace) :
    ∃ W1 t1, World.step host w W op = some W1 ∧
      W1.sched._tasks.length = W1.sched._capacity ∧
      W1.sched.slot i = some t1 ∧ t1.repetitions = 0 ∧ t1.time = τ ∧
      ∀ f, Event.callback i f ∉ W1.trace := by
  cases op with
  | register now c =>
    have hshape := addTask_shape W.sched w now c.time c.action c.alternateAction c.repetitions
      c.callback
    have hkeep := addTask_slot_of_occupied W.sched w now c.time c.action c.alternateAction
      c.repetitions c.callback i (by rw [hslot]; simp)
    refine ⟨{ W with sched := (W.sched.addTask w now c.time c.action c.alternateAction
        c.repetitions c.callback).1 }, t, ?_, ?_, ?_, hrep, htime, hcb⟩
    · simp only [World.step, register_eq_addTask]
    · show (W.sched.addTask w now c.time c.action c.alternateAction c.repetitions
        c.callback).1._tasks.length = (W.sched.addTask w now c.time c.action c.alternateAction
        c.repetitions c.callback).1._capacity
      omega
    · show (W.sched.addTask w now c.time c.action c.alternateAction c.repetitions
        c.callback).1.slot i = some t
      rw [hkeep, hslot]
  | CancelTask index =>
    have hne : index ≠ i := fun h => hop (by rw [h])
    have hshape := removeTask_shape W.sched index
    refine ⟨{ W with sched := W.sched.removeTask index }, t, rfl, ?_, ?_, hrep, htime, hcb⟩
    · show (W.sched.removeTask index)._tasks.length = (W.sched.removeTask index)._capacity
      omega
    · show (W.sched.removeTask index).slot i = some t
      rw [removeTask_slot_of_ne W.sched index i hne, hslot]
  | Update clock =>
    obtain ⟨W1, hup, _, hlen1, hslots, _, hev, _⟩ := Update_inert host hinert w clock W hlen
    have hs1 := hslots i
    rw [hslot] at hs1
    have hnocb : ∀ f, Event.callback i f ∉ W1.trace := by
      intro f hmem
      have hin : Event.callback i f ∈ eventsOf i W1.trace :=
        (mem_eventsOf i W1.trace _).2 ⟨hmem, rfl⟩
      rw [hev i, hslot, List.mem_append] at hin
      rcases hin with hin | hin
      · exact hcb f ((mem_eventsOf i W.trace _).1 hin).1
      · by_cases hdue : clock.check i ≥ t.trigger
        · simp only [passEvents, hdue, if_true, hrep, List.append_nil] at hin
          simp only [show ¬ (0 = 1) by decide, if_false, List.append_nil] at hin
          exact callback_not_mem_actionEvents i i f _ hin
        · simp [passEvents, hdue] at hin
    by_cases hdue : clock.check i ≥ t.trigger
    · refine ⟨W1, t.rearmed w (clock.rearm i), hup, hlen1, ?_, ?_, ?_, hnocb⟩
      · rw [hs1]
        simp [passSlot, hdue, hrep]
      · simp [Task.rearmed, TaskMe.rearmTask, hrep]
      · simp [Task.rearmed, TaskMe.rearmTask, htime]
    · refine ⟨W1, t, hup, hlen1, ?_, hrep, htime, hnocb⟩
      rw [hs1]
      simp [passSlot, hdue]

theorem continuous_run (host : Nat → List HostCall) (hinert : ∀ f, host f = [])
    (w i τ : Nat) (ops : List Op) (hops : Op.CancelTask i ∉ ops) (W : World)
    (hlen : W.sched._tasks.length = W.sched._capacity) (t : Task)
    (hslot : W.sched.slot i = some t) (hrep : t.repetitions = 0) (htime : t.time = τ)
    (hcb : ∀ f, Event.callback i f ∉ W.trace) :
    ∃ W1 t1, World.run host w W ops = some W1 ∧
      W1.sched._tasks.length = W1.sched._capacity ∧
      W1.sched.slot i = some t1 ∧ t1.repetitions = 0 ∧ t1.time = τ ∧
      ∀ f, Event.callback i f ∉ W1.trace := by
  induction ops generalizing W t with
  | nil => exact ⟨W, t, rfl, hlen, hslot, hrep, htime, hcb⟩
  | cons op ops ih =>
    have hop : op ≠ Op.CancelTask i := fun h => hops (by rw [h]; exact List.mem_cons_self _ _)
    have hrest : Op.CancelTask i ∉ ops := fun h => hops (List.mem_cons_of_mem _ h)
    obtain ⟨W1, t1, hstep, hlen1, hslot1, hrep1, htime1, hcb1⟩ :=
      continuous_step host hinert w i τ W op hop hlen t hslot hrep htime hcb
    obtain ⟨W2, t2, hrun, h2⟩ := ih hrest W1 hlen1 t1 hslot1 hrep1 htime1 hcb1
    refine ⟨W2, t2, ?_, h2⟩
    rw [run_cons, hstep]
    exact hrun

/-! ### A task that is due at every pass -/

theorem passesEvents_none (w i : Nat) (clocks : List Clock) :
    passesEvents w i clocks none = [] := by
  induction clocks with
  | nil => rfl
  | cons x clocks ih => simpa [passesEvents, passEvents, passSlot] using ih

theorem actionAt_some (x y k : Nat) :
    actionAt (some x) (some y) k = if k % 2 = 0 then some x else some y := by
  induction k generalizing x y with
  | zero => rfl
  | succ k ih =>
    simp only [actionAt, reduceCtorEq, if_false]
    rw [ih]
    by_cases h : k % 2 = 0
    · have : ¬ (k + 1) % 2 = 0 := by omega
      simp [h, this]
    · have : (k + 1) % 2 = 0 := by omega
      simp [h, this]

/-! ### The count of occupied slots -/

theorem exists_free_of_consistent (s : TaskMe) (hs : s.Consistent) (hfull : s.IsFull = false) :
    ∃ j, j < s._capacity ∧ s.slot j = none := by
  obtain ⟨⟨hlen, _, _⟩, hocc⟩ := hs
  have hlt : s._count < s._capacity := by
    simpa [TaskMe.IsFull] using hfull
  by_contra hcon
  have hall : ∀ a ∈ s._tasks, Option.isSome a = true := by
    intro a ha
    obtain ⟨n, hn, hna⟩ := List.getElem_of_mem ha
    cases a with
    | some _ => rfl
    | none =>
      exfalso
      apply hcon
      refine ⟨n, by omega, ?_⟩
      rw [slot_eq_getElem s n hn, hna]
  have := List.countP_eq_length.2 hall
  unfold TaskMe.occupied at hocc
  omega

theorem consistent_register (s : TaskMe) (w now : Nat) (c : AddCall) (hs : s.Consistent)
    (hfull : s.IsFull = false) : (s.register w now c).1.Consistent := by
  have hfree := exists_free_of_consistent s hs hfull
  obtain ⟨⟨hlen, hcap, hcnt⟩, hocc⟩ := hs
  obtain ⟨hlt, hnone, _, _, hlen1, hcap1, hcount1, htasks1⟩ :=
    register_success s w now c hlen hfull hfree
  have hlt2 : s._count < s._capacity := by
    simpa [TaskMe.IsFull] using hfull
  have hi : (s.register w now c).2 < s._tasks.length := by omega
  have hset := List.countP_set Option.isSome s._tasks (s.register w now c).2
    (some
      { time := toULong w c.time
        trigger := (now + toULong w c.time) % 2 ^ w
        action := c.action
        alternateAction := c.alternateAction
        repetitions := c.repetitions
        callback := c.callback }) hi
  rw [slot_eq_getElem s _ hi] at hnone
  rw [hnone] at hset
  simp only [Option.isSome_none, Bool.false_eq_true, if_false, Option.isSome_some, if_true,
    Nat.sub_zero] at hset
  refine ⟨⟨hlen1, by omega, ?_⟩, ?_⟩
  · rw [hcount1]; exact Nat.mod_lt _ (by decide)
  · unfold TaskMe.occupied at hocc ⊢
    rw [hcount1, htasks1, hset, Nat.mod_eq_of_lt (by omega)]
    omega

theorem isSome_passSlot (w check rearm : Nat) (o : Option Task) :
    (passSlot w check rearm o).isSome = (o.isSome && !passFinished check o) := by
  cases hf : passFinished check o with
  | true =>
    obtain ⟨_, h2⟩ := passSlot_of_finished w check rearm o hf
    simp [h2]
  | false =>
    rw [passSlot_of_not_finished w check rearm o hf]
    simp

/-- Counting occupied slots before and after a pass: every slot marked by `f` was occupied
and is now empty, every other slot kept its occupancy. -/
theorem countP_isSome_after (l₁ : List (Option Task)) :
    ∀ (l₂ : List (Option Task)) (f : Nat → Bool), l₁.length = l₂.length →
      (∀ j, j < l₁.length → (l₂.getD j none).isSome = ((l₁.getD j none).isSome && !f j)) →
      (∀ j, j < l₁.length → f j = true → (l₁.getD j none).isSome = true) →
      l₂.countP Option.isSome + (List.range l₁.length).countP f = l₁.countP Option.isSome := by
  induction l₁ with
  | nil =>
    intro l₂ f hlen _ _
    cases l₂ with
    | nil => rfl
    | cons y l₂ => simp at hlen
  | cons x l₁ ih =>
    intro l₂ f hlen h hf
    cases l₂ with
    | nil => simp at hlen
    | cons y l₂ =>
      have h0 := h 0 (by simp)
      have hf0 := hf 0 (by simp)
      simp only [List.getD_cons_zero] at h0 hf0
      have htail := ih l₂ (fun j => f (j + 1)) (by simpa using hlen)
        (fun j hj => by simpa using h (j + 1) (by simpa using hj))
        (fun j hj hfj => by simpa using hf (j + 1) (by simpa using hj) hfj)
      have hrange : (List.range (x :: l₁).length).countP f
          = (List.range l₁.length).countP (fun j => f (j + 1)) + (if f 0 = true then 1 else 0) := by
        rw [List.length_cons, List.range_succ_eq_map, List.countP_cons, List.countP_map]
        rfl
      have hhead : (if y.isSome = true then 1 else 0) + (if f 0 = true then 1 else 0)
          = (if x.isSome = true then 1 else 0) := by
        rw [h0]
        cases hx : x.isSome with
        | false =>
          cases hf0v : f 0 with
          | false => rfl
          | true => rw [hf0 hf0v] at hx; exact absurd hx (by decide)
        | true =>
          cases hf0v : f 0 with
          | false => rfl
          | true => rfl
      rw [hrange, List.countP_cons, List.countP_cons, ← htail, ← hhead]
      omega

/-- The count of occupied slots after a pass in which slot `i` finishes: one less for slot
`i` and one less for every other slot that finishes. -/
theorem occupied_after_finish (w : Nat) (clock : Clock) (s₁ s₂ : TaskMe)
    (hlen : s₂._tasks.length = s₁._tasks.length)
    (hslots : ∀ j, s₂.slot j = passSlot w (clock.check j) (clock.rearm j) (s₁.slot j)) (i : Nat)
    (hi : passFinished (clock.check i) (s₁.slot i) = true) :
    s₂.occupied + 1 +
        (List.range s₁._tasks.length).countP
          (fun j => decide (j ≠ i) && passFinished (clock.check j) (s₁.slot j))
      = s₁.occupied := by
  obtain ⟨hsome, hnone⟩ := passSlot_of_finished w (clock.check i) (clock.rearm i) _ hi
  have hlt : i < s₁._tasks.length := by
    by_contra hcon
    rw [slot_of_length_le s₁ i (by omega)] at hsome
    simp at hsome
  have hset := List.countP_set Option.isSome s₁._tasks i none hlt
  have hle := List.boole_getElem_le_countP Option.isSome s₁._tasks i hlt
  rw [slot_eq_getElem s₁ i hlt] at hsome
  simp only [hsome, if_true, Option.isSome_none, Bool.false_eq_true, if_false] at hset hle
  have hcount := countP_isSome_after (s₁._tasks.set i none) s₂._tasks
    (fun j => decide (j ≠ i) && passFinished (clock.check j) (s₁.slot j)) (by simp [hlen])
    (fun j _ => by
      rw [getD_set_none]
      by_cases hj : j = i
      · subst hj
        have h2 : s₂._tasks.getD j none = none := by
          have := hslots j
          rw [hnone] at this
          exact this
        rw [h2, if_pos ⟨rfl, hlt⟩]
        simp
      · rw [if_neg (fun h => hj h.1.symm)]
        have h2 : s₂._tasks.getD j none
            = passSlot w (clock.check j) (clock.rearm j) (s₁._tasks.getD j none) := hslots j
        rw [h2, isSome_passSlot]
        simp [hj, TaskMe.slot])
    (fun j _ hfj => by
      simp only [Bool.and_eq_true, decide_eq_true_eq] at hfj
      rw [getD_set_none, if_neg (fun h => hfj.1 h.1.symm)]
      exact (passSlot_of_finished w (clock.check j) (clock.rearm j) _ hfj.2).1)
  simp only [List.length_set] at hcount
  unfold TaskMe.occupied
  omega

/-- Among the slots that finish in a pass, slot `i` counts for one. -/
theorem countP_range_split (fin : Nat → Bool) (i n : Nat) :
    (List.range n).countP fin =
      (List.range n).countP (fun j => decide (j ≠ i) && fin j) +
        (if i < n ∧ fin i = true then 1 else 0) := by
  induction n with
  | zero => simp
  | succ n ih =>
    rw [List.range_succ, List.countP_append, List.countP_append, ih, List.countP_singleton,
      List.countP_singleton]
    by_cases hin : n = i
    · subst hin
      cases hf : fin n <;> simp [hf]
    · have h1 : (i < n + 1) ↔ (i < n) := by omega
      cases hf : fin n with
      | false => simp [hf, hin, h1]
      | true =>
        simp only [hf, hin, h1, ne_eq, not_false_eq_true, decide_True, Bool.and_self, if_true]
        omega

/-- One `Update` pass in which slot `i` finishes, host functions not touching the scheduler:
`Count()` is reduced by one for slot `i` and by one for every other slot that finishes,
provided it was at least that number. -/
theorem count_after_finish (host : Nat → List HostCall) (hinert : ∀ f, host f = [])
    (w : Nat) (clock : Clock) (W W1 : World) (i : Nat)
    (hlen : W.sched._tasks.length = W.sched._capacity) (hcnt : W.sched._count < 256)
    (hup : TaskMe.Update host w clock W = some W1)
    (hi : passFinished (clock.check i) (W.sched.slot i) = true)
    (hle : 1 + (List.range W.sched.Capacity).countP
        (fun j => decide (j ≠ i) && passFinished (clock.check j) (W.sched.slot j))
      ≤ W.sched.Count) :
    W1.sched.Count + 1 +
        (List.range W.sched.Capacity).countP
          (fun j => decide (j ≠ i) && passFinished (clock.check j) (W.sched.slot j))
      = W.sched.Count := by
  obtain ⟨W2, hup2, _, _, _, _, _, _, hcount, hbound⟩ := Update_inert host hinert w clock W hlen
  rw [hup] at hup2
  have h12 : W1 = W2 := Option.some.inj hup2
  subst h12
  have hlt : i < W.sched._capacity := by
    by_contra hcon
    rw [slot_of_length_le W.sched i (by omega)] at hi
    simp [passFinished] at hi
  have hsplit := countP_range_split
    (fun j => passFinished (clock.check j) (W.sched.slot j)) i W.sched._capacity
  rw [if_pos ⟨hlt, hi⟩] at hsplit
  have hb := hbound hcnt
  simp only [TaskMe.Count, TaskMe.Capacity] at hle ⊢
  rw [hsplit] at hcount
  omega

/-! ### Lists of clocks -/

theorem fired_actionEvents (i x : Nat) :
    (actionEvents i (some x)).filterMap Event.fired = [x] := rfl

theorem fired_callbackEvents (i : Nat) (a : Action) :
    (callbackEvents i a).filterMap Event.fired = [] := by
  cases a <;> rfl

theorem map_range_succ_front (f : Nat → Nat) (n : Nat) :
    (List.range (n + 1)).map f = f 0 :: (List.range n).map (fun k => f (k + 1)) := by
  rw [List.range_succ_eq_map, List.map_cons, List.map_map]
  rfl

theorem parity_swap (x y k : Nat) :
    (if (k + 1) % 2 = 0 then x else y) = if k % 2 = 0 then y else x := by
  by_cases h : k % 2 = 0
  · have : ¬ (k + 1) % 2 = 0 := by omega
    simp [h, this]
  · have : (k + 1) % 2 = 0 := by omega
    simp [h, this]

/-- Whatever the clock readings of the passes, a task with two non-null actions invokes
them in strict alternation, starting with its current `action`. -/
theorem alternation_of_passes (w i : Nat) (ts : List Clock) :
    ∀ (t : Task) (x y : Nat), t.action = some x → t.alternateAction = some y →
      ∃ m, (passesEvents w i ts (some t)).filterMap Event.fired
          = (List.range m).map (fun k => if k % 2 = 0 then x else y) ∧
        m ≤ ts.length ∧ (t.repetitions ≠ 0 → m ≤ t.repetitions) := by
  induction ts with
  | nil =>
    intro t x y _ _
    exact ⟨0, rfl, Nat.le_refl _, fun _ => Nat.zero_le _⟩
  | cons clock ts ih =>
    intro t x y hx hy
    by_cases hdue : clock.check i ≥ t.trigger
    · by_cases h1 : t.repetitions = 1
      · refine ⟨1, ?_, by simp, fun _ => by omega⟩
        simp only [passesEvents, passEvents, passSlot, hdue, if_true, h1, hx, passesEvents_none,
          List.append_nil, List.filterMap_append, fired_actionEvents, fired_callbackEvents]
        rfl
      · have hne : t.repetitions - 1 ≠ 0 ↔ t.repetitions ≠ 0 := by omega
        have hle : ∀ m, m ≤ t.repetitions - 1 → t.repetitions ≠ 0 → m + 1 ≤ t.repetitions := by
          intro m h1 h2; omega
        obtain ⟨m, hm, hlen, hrep⟩ := ih (t.rearmed w (clock.rearm i)) y x
          (by simp [Task.rearmed, TaskMe.rearmTask, hy])
          (by simp [Task.rearmed, TaskMe.rearmTask, hy, hx])
        refine ⟨m + 1, ?_, by simpa using hlen, ?_⟩
        · simp only [passesEvents, passEvents, passSlot, hdue, if_true, h1, if_false, hx,
            List.append_nil, List.filterMap_append, fired_actionEvents, hm]
          rw [map_range_succ_front]
          simp only [parity_swap]
          rfl
        · intro h0
          have hr : (t.rearmed w (clock.rearm i)).repetitions = t.repetitions - 1 := by
            simp [Task.rearmed, TaskMe.rearmTask]
          rw [hr] at hrep
          exact hle m (hrep (hne.2 h0)) h0
    · obtain ⟨m, hm, hlen, hrep⟩ := ih t x y hx hy
      refine ⟨m, ?_, by simp only [List.length_cons]; omega, hrep⟩
      simp only [passesEvents, passEvents, passSlot, hdue, if_false, List.nil_append, hm]

theorem fired_flatMap_range (i n : Nat) (g : Nat → Nat) (l : List Event)
    (hl : l.filterMap Event.fired = []) :
    ((List.range n).flatMap (fun k => actionEvents i (some (g k))) ++ l).filterMap Event.fired
      = (List.range n).map g := by
  rw [List.filterMap_append, hl, List.append_nil]
  induction n with
  | zero => rfl
  | succ n ih =>
    rw [List.range_succ, List.flatMap_append, List.filterMap_append, ih, List.flatMap_singleton,
      fired_actionEvents, List.map_append]
    rfl

/-! ### Lemmas for single passes, the calling discipline and the clock -/

theorem register_of_full (s : TaskMe) (w now : Nat) (c : AddCall) (hfull : s.IsFull = true) :
    s.register w now c = (s, s._count) := by
  rw [register_eq_addTask]
  simp [TaskMe.addTask, hfull]

theorem step_capacity_zero (host : Nat → List HostCall) (w : Nat) (op : Op) :
    World.step host w (World.new 0) op = some (World.new 0) := by
  cases op with
  | register now c =>
    simp only [World.step]
    rw [register_of_full (World.new 0).sched w now c (by decide)]
  | Update clock => rfl
  | CancelTask index =>
    have h : index ≥ (World.new 0).sched._capacity := Nat.zero_le index
    simp only [World.step, TaskMe.CancelTask, TaskMe.removeTask]
    rw [if_pos h]

theorem passes_not_due (w i : Nat) (clocks : List Clock) (t : Task)
    (h : ∀ x ∈ clocks, x.check i < t.trigger) :
    passes w i clocks (some t) = some t ∧ passesEvents w i clocks (some t) = [] := by
  induction clocks with
  | nil => exact ⟨rfl, rfl⟩
  | cons x ts ih =>
    have hx : ¬ x.check i ≥ t.trigger := by
      have := h x (List.mem_cons_self _ _)
      omega
    have hp : passSlot w (x.check i) (x.rearm i) (some t) = some t := by simp [passSlot, hx]
    have he : passEvents (x.check i) i (some t) = [] := by simp [passEvents, hx]
    obtain ⟨h1, h2⟩ := ih (fun y hy => h y (List.mem_cons_of_mem _ hy))
    exact ⟨by simp only [passes, hp, h1], by simp only [passesEvents, hp, he, h2, List.append_nil]⟩

/-- One `Update` pass on a consistent state, host functions not touching the scheduler:
every slot is handled once, in ascending index order; a due slot invokes its action, and
its callback when `repetitions == 1`; the slots that finish are emptied and `Count()` is
reduced by their number. -/
theorem Update_pass_consistent (host : Nat → List HostCall) (hinert : ∀ f, host f = [])
    (w : Nat) (clock : Clock) (W : World) (hs : W.sched.Consistent) :
    ∃ W1, TaskMe.Update host w clock W = some W1 ∧
      W1.trace = W.trace ++
        (List.range W.sched.Capacity).flatMap
          (fun j => passEvents (clock.check j) j (W.sched.slot j)) ∧
      (∀ j t, W.sched.slot j = some t → t.trigger ≤ clock.check j → t.repetitions = 1 →
        W1.sched.slot j = none) ∧
      (∀ j t, W.sched.slot j = some t → t.trigger ≤ clock.check j → t.repetitions ≠ 1 →
        W1.sched.slot j = some (t.rearmed w (clock.rearm j))) ∧
      (∀ j, (W.sched.slot j = none ∨
          ∃ t, W.sched.slot j = some t ∧ clock.check j < t.trigger) →
        W1.sched.slot j = W.sched.slot j) ∧
      W1.sched.Count +
          (List.range W.sched.Capacity).countP
            (fun j => passFinished (clock.check j) (W.sched.slot j))
        = W.sched.Count ∧
      W1.sched.Consistent := by
  obtain ⟨W1, hup, hcap, hlen1, hslots, htrace, _, hcons, _, _⟩ :=
    Update_inert host hinert w clock W hs.1.1
  have hlen : W1.sched._tasks.length = W.sched._tasks.length := by
    rw [hlen1, hcap, hs.1.1]
  have hcount := countP_isSome_after W.sched._tasks W1.sched._tasks
    (fun j => passFinished (clock.check j) (W.sched.slot j)) hlen.symm
    (fun j _ => by
      have h2 : W1.sched._tasks.getD j none
          = passSlot w (clock.check j) (clock.rearm j) (W.sched._tasks.getD j none) :=
        hslots j
      rw [h2, isSome_passSlot]
      rfl)
    (fun j _ hfj => (passSlot_of_finished w (clock.check j) (clock.rearm j) _ hfj).1)
  refine ⟨W1, hup, htrace, ?_, ?_, ?_, ?_, hcons hs⟩
  · intro j t hj hdue h1
    rw [hslots j, hj]
    simp [passSlot, hdue, h1]
  · intro j t hj hdue h1
    rw [hslots j, hj]
    simp [passSlot, hdue, h1]
  · intro j hj
    rw [hslots j]
    rcases hj with hj | ⟨t, hj, hlt⟩
    · rw [hj]; rfl
    · have hx : ¬ clock.check j ≥ t.trigger := by omega
      rw [hj]
      simp [passSlot, hx]
  · have hc1 := hs.2
    have hc2 := (hcons hs).2
    simp only [TaskMe.Count, TaskMe.Capacity]
    rw [hc1, hc2, ← hs.1.1]
    exact hcount

/-- The concrete scenario of the specification: capacity 2, three `AddSingle(100, _)` at
clock reading `T`, one `Update` that reads, for each of the two slots, at least `T + 100`. -/
theorem scenario_two_slots (host : Nat → List HostCall) (hinert : ∀ f, host f = [])
    (w T A B C : Nat) (clock : Clock) (hnow0 : T + 100 ≤ clock.check 0)
    (hnow1 : T + 100 ≤ clock.check 1) (hw : T + 100 < 2 ^ w) :
    ((TaskMe.new 2).register w T (AddCall.AddSingle 100 (some A))).2 = 0 ∧
    (((TaskMe.new 2).register w T (AddCall.AddSingle 100 (some A))).1.register w T
      (AddCall.AddSingle 100 (some B))).2 = 1 ∧
    ((((TaskMe.new 2).register w T (AddCall.AddSingle 100 (some A))).1.register w T
      (AddCall.AddSingle 100 (some B))).1.register w T (AddCall.AddSingle 100 (some C))).2 = 2 ∧
    ((((TaskMe.new 2).register w T (AddCall.AddSingle 100 (some A))).1.register w T
      (AddCall.AddSingle 100 (some B))).1.register w T (AddCall.AddSingle 100 (some C))).1.Count
        = 2 ∧
    ∃ W, World.run host w (World.new 2)
        [Op.register T (AddCall.AddSingle 100 (some A)),
         Op.register T (AddCall.AddSingle 100 (some B)),
         Op.register T (AddCall.AddSingle 100 (some C)), Op.Update clock] = some W ∧
      W.trace = [Event.action 0 A, Event.action 1 B] ∧
      W.sched.slot 0 = none ∧ W.sched.slot 1 = none ∧ W.sched.Count = 0 := by
  have h100 : toULong w (100 : Int) = 100 := by
    have h := toULong_of_nonneg w (100 : Int) (by decide)
      (by exact_mod_cast (show (100 : Nat) < 2 ^ w by omega))
    exact_mod_cast h
  have htrig : (T + 100) % 2 ^ w = T + 100 := Nat.mod_eq_of_lt (by omega)
  have hfull0 : (TaskMe.new 2).IsFull = false := by decide
  have hfree0 : (TaskMe.new 2).firstFree = some 0 := by decide
  have hadd0 := addTask_of_firstFree (TaskMe.new 2) w T 100 (some A) none 1 none 0 hfull0 hfree0
  rw [h100, htrig] at hadd0
  have hreg0 : (TaskMe.new 2).register w T (AddCall.AddSingle 100 (some A)) =
      ({ _tasks := [some ⟨100, T + 100, 1, some A, none, none⟩, none], _capacity := 2,
         _count := 1 }, 0) := by
    rw [register_eq_addTask]
    simp only [AddCall.time, AddCall.action, AddCall.alternateAction, AddCall.repetitions,
      AddCall.callback]
    rw [hadd0]
    rfl
  have hadd1 := addTask_of_firstFree
    { _tasks := [some ⟨100, T + 100, 1, some A, none, none⟩, none], _capacity := 2, _count := 1 }
    w T 100 (some B) none 1 none 1 (by simp [TaskMe.IsFull]) (by
      rw [firstFree_eq_some]
      refine ⟨rfl, by show 1 < 2; decide, ?_⟩
      intro j hj
      have : j = 0 := by omega
      subst this
      simp [TaskMe.slot])
  rw [h100, htrig] at hadd1
  have hreg1 : TaskMe.register
      { _tasks := [some ⟨100, T + 100, 1, some A, none, none⟩, none], _capacity := 2, _count := 1 }
      w T (AddCall.AddSingle 100 (some B)) =
      ({ _tasks := [some ⟨100, T + 100, 1, some A, none, none⟩,
                    some ⟨100, T + 100, 1, some B, none, none⟩], _capacity := 2,
         _count := 2 }, 1) := by
    rw [register_eq_addTask]
    simp only [AddCall.time, AddCall.action, AddCall.alternateAction, AddCall.repetitions,
      AddCall.callback]
    rw [hadd1]
    rfl
  have hreg2 : TaskMe.register
      { _tasks := [some ⟨100, T + 100, 1, some A, none, none⟩,
                    some ⟨100, T + 100, 1, some B, none, none⟩], _capacity := 2, _count := 2 }
      w T (AddCall.AddSingle 100 (some C)) =
      ({ _tasks := [some ⟨100, T + 100, 1, some A, none, none⟩,
                    some ⟨100, T + 100, 1, some B, none, none⟩], _capacity := 2,
         _count := 2 }, 2) := by
    rw [register_eq_addTask]
    simp [TaskMe.addTask, TaskMe.IsFull]
  rw [hreg0, hreg1, hreg2]
  refine ⟨rfl, rfl, rfl, rfl, ?_⟩
  have hcons : TaskMe.Consistent
      { _tasks := [some ⟨100, T + 100, 1, some A, none, none⟩,
                    some ⟨100, T + 100, 1, some B, none, none⟩], _capacity := 2, _count := 2 } :=
    ⟨⟨rfl, by show 2 < 256; decide, by show 2 < 256; decide⟩, rfl⟩
  obtain ⟨W1, hup, htrace, hfin, _, _, hcount, _⟩ := Update_pass_consistent host hinert w clock
    { sched := { _tasks := [some ⟨100, T + 100, 1, some A, none, none⟩,
                    some ⟨100, T + 100, 1, some B, none, none⟩], _capacity := 2, _count := 2 },
      trace := [] } hcons
  refine ⟨W1, ?_, ?_, ?_, ?_, ?_⟩
  · simp only [run_cons, run_nil, World.step, World.new, hreg0, hreg1, hreg2, Option.some_bind,
      hup, Option.bind_some]
  · rw [htrace]
    simp [TaskMe.Capacity, List.range_succ, TaskMe.slot, passEvents, hnow0, hnow1, actionEvents,
      callbackEvents]
  · exact hfin 0 _ rfl hnow0 rfl
  · exact hfin 1 _ rfl hnow1 rfl
  · simp only [TaskMe.Capacity, TaskMe.Count] at hcount ⊢
    have h2 : (List.range 2).countP
        (fun j => passFinished (clock.check j) (TaskMe.slot
          { _tasks := [some ⟨100, T + 100, 1, some A, none, none⟩,
                    some ⟨100, T + 100, 1, some B, none, none⟩], _capacity := 2, _count := 2 } j))
        = 2 := by
      simp [List.range_succ, TaskMe.slot, passFinished, hnow0, hnow1, List.countP_cons]
    rw [h2] at hcount
    omega

theorem exec_slot_of_occupied (w : Nat) (reading : Nat → Nat) (index : Nat) (t : Task)
    (body : List HostCall) :
    ∀ (first : Nat) (s : TaskMe), s.slot index = some t →
      HostCall.deletes index body = false →
      (HostCall.execBody w reading first body s).slot index = some t := by
  induction body with
  | nil => intro first s hs _; exact hs
  | cons c body ih =>
    intro first s hs hdel
    simp only [HostCall.deletes, List.any_cons, Bool.or_eq_false_iff,
      decide_eq_false_iff_not] at hdel
    obtain ⟨hc, hrest⟩ := hdel
    show (HostCall.execBody w reading (first + 1) body
      (HostCall.exec w (reading first) s c)).slot index = some t
    apply ih _ _ _ hrest
    cases c with
    | CancelTask j =>
      have hne : j ≠ index := fun h => hc (by rw [h])
      show (s.removeTask j).slot index = some t
      rw [removeTask_slot_of_ne s j index hne, hs]
    | register c =>
      show (s.register w (reading first) c).1.slot index = some t
      rw [register_eq_addTask, addTask_slot_of_occupied _ _ _ _ _ _ _ _ index (by rw [hs]; simp),
        hs]

theorem slot_store_self (W : World) (index : Nat) (t t1 : Task)
    (hslot : W.sched.slot index = some t) : (W.store index t1).sched.slot index = some t1 := by
  have hlt : index < W.sched._tasks.length := by
    by_contra hcon
    rw [slot_of_length_le W.sched index (by omega)] at hslot
    exact absurd hslot (by simp)
  simp only [World.store, TaskMe.slot]
  rw [getD_set_none, if_pos ⟨rfl, hlt⟩]

theorem consistent_new (capacity : Nat) : (TaskMe.new capacity).Consistent := by
  refine ⟨valid_new capacity, ?_⟩
  have h : (List.replicate (capacity % 256) (none : Option Task)).countP Option.isSome = 0 := by
    rw [List.countP_eq_zero]
    intro a ha
    rw [List.eq_of_mem_replicate ha]
    simp
  simp only [TaskMe.new, TaskMe.occupied, h]

theorem count_le_capacity (s : TaskMe) (hs : s.Consistent) : s.Count ≤ s.Capacity := by
  obtain ⟨⟨hlen, _, _⟩, hocc⟩ := hs
  have := List.countP_le_length Option.isSome (l := s._tasks)
  simp only [TaskMe.Count, TaskMe.Capacity, TaskMe.occupied] at *
  omega

theorem consistent_register_any (s : TaskMe) (w now : Nat) (c : AddCall) (hs : s.Consistent) :
    (s.register w now c).1.Consistent := by
  cases hfull : s.IsFull with
  | true => rw [register_of_full s w now c hfull]; exact hs
  | false => exact consistent_register s w now c hs hfull

theorem consistent_cancel (s : TaskMe) (index : Nat) (hs : s.Consistent)
    (hok : index ≥ s.Capacity ∨ (s.slot index).isSome = true) :
    (s.CancelTask index).Consistent := by
  by_cases hidx : index ≥ s._capacity
  · simp only [TaskMe.CancelTask, TaskMe.removeTask, hidx, if_true]
    exact hs
  · have hsome : (s.slot index).isSome = true := by
      rcases hok with h | h
      · exact absurd h hidx
      · exact h
    have h := consistent_set s hs index (by omega) none true (fun _ => ⟨hsome, rfl⟩)
      (fun h => absurd h (by decide))
    simp only [if_true] at h
    simp only [TaskMe.CancelTask, TaskMe.removeTask, hidx, if_false]
    exact h

theorem consistent_step (host : Nat → List HostCall) (hinert : ∀ f, host f = []) (w : Nat)
    (W : World) (op : Op) (hs : W.sched.Consistent) (hop : W.permits op = true) :
    ∃ W1, World.step host w W op = some W1 ∧ W1.sched.Consistent := by
  cases op with
  | register now c =>
    exact ⟨_, rfl, consistent_register_any W.sched w now c hs⟩
  | Update clock =>
    obtain ⟨W1, hup, _, _, _, _, _, hcons, _, _⟩ := Update_inert host hinert w clock W hs.1.1
    exact ⟨W1, hup, hcons hs⟩
  | CancelTask index =>
    refine ⟨_, rfl, consistent_cancel W.sched index hs ?_⟩
    simpa [World.permits] using hop

theorem consistent_run (host : Nat → List HostCall) (hinert : ∀ f, host f = []) (w : Nat)
    (ops : List Op) :
    ∀ W : World, W.sched.Consistent → World.disciplined host w W ops = true →
      ∃ W1, World.run host w W ops = some W1 ∧ W1.sched.Consistent := by
  induction ops with
  | nil => intro W hs _; exact ⟨W, rfl, hs⟩
  | cons op ops ih =>
    intro W hs hd
    simp only [World.disciplined, Bool.and_eq_true] at hd
    obtain ⟨W1, hstep, hs1⟩ := consistent_step host hinert w W op hs hd.1
    have hd2 := hd.2
    rw [hstep] at hd2
    obtain ⟨W2, hrun, hs2⟩ := ih W1 hs1 hd2
    exact ⟨W2, by rw [run_cons, hstep]; exact hrun, hs2⟩

theorem cast_trigger (w now : Nat) (time : Int) :
    (((now + toULong w time) % 2 ^ w : Nat) : Int)
      = ((now : Int) + time) % ((2 ^ w : Nat) : Int) := by
  have hpos : (0 : Int) < ((2 ^ w : Nat) : Int) := by exact_mod_cast Nat.two_pow_pos w
  have hconv : ((toULong w time : Nat) : Int) = time % ((2 ^ w : Nat) : Int) := by
    unfold toULong
    exact Int.toNat_of_nonneg (Int.emod_nonneg _ (ne_of_gt hpos))
  rw [Int.natCast_mod, Nat.cast_add, hconv, Int.add_emod_emod]

theorem toULong_of_neg (w : Nat) (time : Int) (hneg : time < 0)
    (hge : -((2 ^ w : Nat) : Int) ≤ time) :
    ((toULong w time : Nat) : Int) = ((2 ^ w : Nat) : Int) + time := by
  have hpos : (0 : Int) < ((2 ^ w : Nat) : Int) := by exact_mod_cast Nat.two_pow_pos w
  unfold toULong
  rw [Int.toNat_of_nonneg (Int.emod_nonneg _ (ne_of_gt hpos))]
  have h1 : time % ((2 ^ w : Nat) : Int) = (time + ((2 ^ w : Nat) : Int)) % ((2 ^ w : Nat) : Int) := by
    rw [Int.add_emod_self]
  rw [h1, Int.emod_eq_of_lt (by omega) (by omega)]
  omega

/-! ### One `Update` pass with arbitrary host functions -/

theorem firings_append (i : Nat) (l₁ l₂ : List Event) :
    firings i (l₁ ++ l₂) = firings i l₁ ++ firings i l₂ := by
  simp [firings, eventsOf]

theorem invoke_slot_of_occupied (host : Nat → List HostCall) (w : Nat) (clock : Clock)
    (W : World) (e : Event) (f i : Nat) (t : Task) (hslot : W.sched.slot i = some t)
    (hdel : HostCall.deletes i (host f) = false) :
    (W.invoke host w clock e f).sched.slot i = some t :=
  exec_slot_of_occupied w (clock.inBody e) i t (host f) 0 W.sched hslot hdel

theorem store_slot_of_ne (W : World) (j i : Nat) (t : Task) (h : j ≠ i) :
    (W.store j t).sched.slot i = W.sched.slot i := by
  simp only [World.store, TaskMe.slot]
  rw [getD_set_none, if_neg (fun h1 => h h1.1)]

/-- The ways the loop body of `Update` can return, whatever the host functions do. -/
theorem updateSlot_cases (host : Nat → List HostCall) (w : Nat) (clock : Clock) (W W1 : World)
    (j : Nat) (h : TaskMe.updateSlot host w clock W j = some W1) :
    (W1 = W ∧
      (W.sched.slot j = none ∨ ∃ t, W.sched.slot j = some t ∧ clock.check j < t.trigger)) ∨
    ∃ t Wa, W.sched.slot j = some t ∧ clock.check j ≥ t.trigger ∧
      ((t.action = none ∧ Wa = W) ∨
        ∃ f, t.action = some f ∧ HostCall.deletes j (host f) = false ∧
          Wa = W.invoke host w clock (Event.action j f) f) ∧
      ((t.repetitions ≠ 1 ∧ W1 = Wa.store j (t.rearmed w (clock.rearm j))) ∨
        (t.repetitions = 1 ∧ ∃ t1 W2, Wa.sched.slot j = some t1 ∧
          ((t1.callback = none ∧ W2 = Wa) ∨
            ∃ g, t1.callback = some g ∧ W2 = Wa.invoke host w clock (Event.callback j g) g) ∧
          W1 = { W2 with sched := W2.sched.removeTask j })) := by
  unfold TaskMe.updateSlot at h
  cases hslot : W.sched.slot j with
  | none =>
    rw [hslot] at h
    left
    exact ⟨(Option.some.inj h).symm, Or.inl rfl⟩
  | some t =>
    rw [hslot] at h
    simp only [TaskMe.updateTask, hslot] at h
    by_cases hdue : clock.check j ≥ t.trigger
    · simp only [hdue, if_true, TaskMe.processTask, hslot] at h
      right
      cases hact : t.action with
      | none =>
        simp only [hact] at h
        by_cases h1 : t.repetitions = 1
        · simp only [h1, if_true] at h
          cases hs1 : W.sched.slot j with
          | none => rw [hslot] at hs1; exact absurd hs1 (by simp)
          | some t1 =>
            simp only [hs1] at h
            refine ⟨t, W, rfl, hdue, Or.inl ⟨hact, rfl⟩, Or.inr ⟨h1, t1, _, hs1, ?_,
              (Option.some.inj h).symm⟩⟩
            cases hcb : t1.callback with
            | none => exact Or.inl ⟨rfl, rfl⟩
            | some g => exact Or.inr ⟨g, rfl, rfl⟩
        · refine ⟨t, W, rfl, hdue, Or.inl ⟨hact, rfl⟩, Or.inl ⟨h1, ?_⟩⟩
          by_cases h2 : t.repetitions > 1
          · simp only [h1, if_false, h2, if_true] at h
            rw [← Option.some.inj h]
            simp [Task.rearmed, hact]
          · have h0 : t.repetitions = 0 := by omega
            simp only [h0, if_true] at h
            simp only [show ¬ (0 = 1) by decide, show ¬ (0 > 0) by decide, if_false] at h
            rw [← Option.some.inj h]
            simp [Task.rearmed, hact, h0]
      | some f =>
        simp only [hact] at h
        cases hdel : HostCall.deletes j (host f) with
        | true => simp [hdel] at h
        | false =>
          simp only [hdel, Bool.false_eq_true, if_false] at h
          by_cases h1 : t.repetitions = 1
          · simp only [h1, if_true] at h
            cases hs1 : (W.invoke host w clock (Event.action j f) f).sched.slot j with
            | none => simp [hs1] at h
            | some t1 =>
              simp only [hs1] at h
              refine ⟨t, _, rfl, hdue, Or.inr ⟨f, hact, hdel, rfl⟩, Or.inr ⟨h1, t1, _, hs1, ?_,
                (Option.some.inj h).symm⟩⟩
              cases hcb : t1.callback with
              | none => exact Or.inl ⟨rfl, rfl⟩
              | some g => exact Or.inr ⟨g, rfl, rfl⟩
          · refine ⟨t, _, rfl, hdue, Or.inr ⟨f, hact, hdel, rfl⟩, Or.inl ⟨h1, ?_⟩⟩
            by_cases h2 : t.repetitions > 1
            · simp only [h1, if_false, h2, if_true] at h
              rw [← Option.some.inj h]
              simp [Task.rearmed, hact]
            · have h0 : t.repetitions = 0 := by omega
              simp only [h0, if_true] at h
              simp only [show ¬ (0 = 1) by decide, show ¬ (0 > 0) by decide, if_false] at h
              rw [← Option.some.inj h]
              simp [Task.rearmed, hact, h0]
    · simp only [hdue, if_false] at h
      left
      exact ⟨(Option.some.inj h).symm, Or.inr ⟨t, rfl, by omega⟩⟩

/-- The loop body of `Update` at `j` only adds events of slot `j` to the trace. -/
theorem updateSlot_trace (host : Nat → List HostCall) (w : Nat) (clock : Clock) (W W1 : World)
    (j : Nat) (h : TaskMe.updateSlot host w clock W j = some W1) :
    ∃ new, W1.trace = W.trace ++ new ∧ ∀ e ∈ new, e.index = j := by
  rcases updateSlot_cases host w clock W W1 j h with ⟨h1, _⟩ | ⟨t, Wa, _, _, hact, hrest⟩
  · exact ⟨[], by rw [h1]; simp, by simp⟩
  · have ha : ∃ new, Wa.trace = W.trace ++ new ∧ ∀ e ∈ new, e.index = j := by
      rcases hact with ⟨_, hWa⟩ | ⟨f, _, _, hWa⟩
      · exact ⟨[], by rw [hWa]; simp, by simp⟩
      · refine ⟨[Event.action j f], by rw [hWa]; rfl, ?_⟩
        intro e he
        rw [List.mem_singleton] at he
        rw [he]; rfl
    obtain ⟨new, hnew, hidx⟩ := ha
    rcases hrest with ⟨_, hW1⟩ | ⟨_, t1, W2, _, hcb, hW1⟩
    · exact ⟨new, by rw [hW1]; exact hnew, hidx⟩
    · rcases hcb with ⟨_, hW2⟩ | ⟨g, _, hW2⟩
      · exact ⟨new, by rw [hW1, hW2]; exact hnew, hidx⟩
      · refine ⟨new ++ [Event.callback j g], ?_, ?_⟩
        · rw [hW1, hW2]
          show Wa.trace ++ [Event.callback j g] = W.trace ++ (new ++ [Event.callback j g])
          rw [hnew, List.append_assoc]
        · intro e he
          rw [List.mem_append, List.mem_singleton] at he
          rcases he with he | he
          · exact hidx e he
          · rw [he]; rfl

/-- The loop body of `Update` at `j` leaves an occupied slot `i ≠ j` as it is, when no host
function cancels `i`. -/
theorem updateSlot_other (host : Nat → List HostCall) (w : Nat) (clock : Clock) (W W1 : World)
    (i j : Nat) (t : Task) (hji : j ≠ i) (hkeep : ∀ f, HostCall.deletes i (host f) = false)
    (hslot : W.sched.slot i = some t)
    (h : TaskMe.updateSlot host w clock W j = some W1) : W1.sched.slot i = some t := by
  rcases updateSlot_cases host w clock W W1 j h with ⟨h1, _⟩ | ⟨tj, Wa, _, _, hact, hrest⟩
  · rw [h1]; exact hslot
  · have ha : Wa.sched.slot i = some t := by
      rcases hact with ⟨_, hWa⟩ | ⟨f, _, _, hWa⟩
      · rw [hWa]; exact hslot
      · rw [hWa]
        exact invoke_slot_of_occupied host w clock W _ f i t hslot (hkeep f)
    rcases hrest with ⟨_, hW1⟩ | ⟨_, t1, W2, _, hcb, hW1⟩
    · rw [hW1, store_slot_of_ne Wa j i _ hji]
      exact ha
    · have h2 : W2.sched.slot i = some t := by
        rcases hcb with ⟨_, hW2⟩ | ⟨g, _, hW2⟩
        · rw [hW2]; exact ha
        · rw [hW2]
          exact invoke_slot_of_occupied host w clock Wa _ g i t ha (hkeep g)
      rw [hW1]
      show (W2.sched.removeTask j).slot i = some t
      rw [removeTask_slot_of_ne W2.sched j i hji]
      exact h2

/-- The loop body of `Update` at an occupied slot `i`, whatever the host functions do: the
task is not due and nothing changes; or it is due with `repetitions != 1`, its action is
called and the slot holds the rearmed task; or it is due with `repetitions == 1` and its
action is called, then the callback that its record holds at that moment. -/
theorem updateSlot_self (host : Nat → List HostCall) (w : Nat) (clock : Clock) (W W1 : World)
    (i : Nat) (t : Task) (hslot : W.sched.slot i = some t)
    (h : TaskMe.updateSlot host w clock W i = some W1) :
    (clock.check i < t.trigger ∧ W1 = W) ∨
    (clock.check i ≥ t.trigger ∧ t.repetitions ≠ 1 ∧
      W1.sched.slot i = some (t.rearmed w (clock.rearm i)) ∧
      W1.trace = W.trace ++ actionEvents i t.action) ∨
    (clock.check i ≥ t.trigger ∧ t.repetitions = 1 ∧
      W1.trace = W.trace ++ actionEvents i t.action ++ callbackEvents i t.callback) := by
  rcases updateSlot_cases host w clock W W1 i h with
    ⟨h1, hnot⟩ | ⟨t0, Wa, hs0, hdue, hact, hrest⟩
  · left
    rcases hnot with hnone | ⟨t0, hs0, hlt⟩
    · rw [hslot] at hnone
      exact absurd hnone (by simp)
    · rw [hslot] at hs0
      rw [Option.some.inj hs0]
      exact ⟨hlt, h1⟩
  · rw [hslot] at hs0
    have ht : t0 = t := (Option.some.inj hs0).symm
    subst ht
    have ha : Wa.sched.slot i = some t0 ∧ Wa.trace = W.trace ++ actionEvents i t0.action := by
      rcases hact with ⟨hnone, hWa⟩ | ⟨f, hf, hdel, hWa⟩
      · rw [hWa, hnone]
        exact ⟨hslot, by simp [actionEvents]⟩
      · rw [hWa, hf]
        exact ⟨invoke_slot_of_occupied host w clock W _ f i t0 hslot hdel, rfl⟩
    right
    rcases hrest with ⟨hrep, hW1⟩ | ⟨hrep, t1, W2, hs1, hcb, hW1⟩
    · left
      refine ⟨hdue, hrep, ?_, ?_⟩
      · rw [hW1]
        exact slot_store_self Wa i t0 _ ha.1
      · rw [hW1]
        exact ha.2
    · right
      rw [ha.1] at hs1
      have ht1 : t1 = t0 := (Option.some.inj hs1).symm
      subst ht1
      refine ⟨hdue, hrep, ?_⟩
      rcases hcb with ⟨hnone, hW2⟩ | ⟨g, hg, hW2⟩
      · rw [hW1, hW2, hnone]
        show Wa.trace = W.trace ++ actionEvents i t1.action ++ callbackEvents i none
        rw [ha.2]
        simp [callbackEvents]
      · rw [hW1, hW2, hg]
        show Wa.trace ++ [Event.callback i g]
          = W.trace ++ actionEvents i t1.action ++ callbackEvents i (some g)
        rw [ha.2]
        rfl

theorem firings_of_other (i j : Nat) (l : List Event) (hl : ∀ e ∈ l, e.index = j)
    (hji : j ≠ i) : firings i l = [] := by
  have h : eventsOf i l = [] := by
    unfold eventsOf
    rw [List.filter_eq_nil_iff]
    intro e he
    simp [hl e he, hji]
  simp [firings, h]

theorem firings_actionEvents (i x : Nat) : firings i (actionEvents i (some x)) = [x] := by
  simp [firings, eventsOf, actionEvents, Event.index, Event.fired]

theorem firings_callbackEvents (i : Nat) (a : Action) : firings i (callbackEvents i a) = [] := by
  cases a <;> simp [firings, eventsOf, callbackEvents, Event.index, Event.fired]

theorem foldlM_invariant {α β : Type} (f : β → α → Option β) (P : β → Prop)
    (hstep : ∀ b a b1, P b → f b a = some b1 → P b1) (l : List α) :
    ∀ b b1, P b → l.foldlM f b = some b1 → P b1 := by
  induction l with
  | nil =>
    intro b b1 hb h
    have : b = b1 := Option.some.inj h
    rw [← this]
    exact hb
  | cons a l ih =>
    intro b b1 hb h
    rw [List.foldlM_cons] at h
    cases hfa : f b a with
    | none => rw [hfa] at h; exact absurd h (by simp)
    | some b2 =>
      rw [hfa] at h
      exact ih b2 b1 (hstep b a b2 hb hfa) h

/-- The loop body of `Update`, at any index, keeps a task with two actions alternating, when
no host function cancels the slot of the task. -/
theorem alternating_updateSlot (host : Nat → List HostCall) (w : Nat) (clock : Clock)
    (i X Y N : Nat) (hkeep : ∀ f, HostCall.deletes i (host f) = false) (W : World) (j : Nat)
    (W1 : World) (hinv : Alternating i X Y N W)
    (h : TaskMe.updateSlot host w clock W j = some W1) : Alternating i X Y N W1 := by
  rcases hinv with ⟨t, m, hslot, hfir, hact, halt, h0, hN⟩ | ⟨hN, rest, hfir⟩
  · by_cases hji : j = i
    · subst hji
      rcases updateSlot_self host w clock W W1 j t hslot h with
        ⟨_, h1⟩ | ⟨_, hrep, hs1, htr⟩ | ⟨_, hrep, htr⟩
      · rw [h1]
        exact Or.inl ⟨t, m, hslot, hfir, hact, halt, h0, hN⟩
      · left
        refine ⟨t.rearmed w (clock.rearm j), m + 1, hs1, ?_, ?_, ?_, ?_, ?_⟩
        · rw [htr, firings_append, hfir, hact, firings_actionEvents, List.range_succ,
            List.map_append]
          rfl
        · simp only [Task.rearmed, TaskMe.rearmTask, halt, reduceCtorEq, if_false]
          rw [parity_swap]
        · simp only [Task.rearmed, TaskMe.rearmTask, halt, reduceCtorEq, if_false, hact]
          rw [parity_swap]
        · intro hN0
          simp [Task.rearmed, TaskMe.rearmTask, h0 hN0]
        · intro hN0
          have := hN hN0
          simp only [Task.rearmed, TaskMe.rearmTask]
          omega
      · right
        have hN0 : N ≠ 0 := by
          intro hN0
          have := h0 hN0
          omega
        have hm : m + 1 = N := by
          have := hN hN0
          omega
        refine ⟨hN0, [], ?_⟩
        rw [htr, firings_append, firings_append, hfir, hact, firings_actionEvents,
          firings_callbackEvents, ← hm, List.range_succ, List.map_append]
        rfl
    · obtain ⟨new, hnew, hidx⟩ := updateSlot_trace host w clock W W1 j h
      left
      refine ⟨t, m, updateSlot_other host w clock W W1 i j t hji hkeep hslot h, ?_, hact, halt,
        h0, hN⟩
      rw [hnew, firings_append, firings_of_other i j new hidx hji, hfir, List.append_nil]
  · obtain ⟨new, hnew, _⟩ := updateSlot_trace host w clock W W1 j h
    right
    refine ⟨hN, rest ++ firings i new, ?_⟩
    rw [hnew, firings_append, hfir, List.append_assoc]

/-- A public operation other than `CancelTask` on the slot of the task keeps a task with two
actions alternating, when no host function cancels that slot. -/
theorem alternating_step (host : Nat → List HostCall) (w i X Y N : Nat)
    (hkeep : ∀ f, HostCall.deletes i (host f) = false) (W W1 : World) (op : Op)
    (hop : op ≠ Op.CancelTask i) (hinv : Alternating i X Y N W)
    (h : World.step host w W op = some W1) : Alternating i X Y N W1 := by
  cases op with
  | register now c =>
    have hW1 : W1 = { W with sched := (W.sched.register w now c).1 } := (Option.some.inj h).symm
    rcases hinv with ⟨t, m, hslot, hrest⟩ | hdone
    · left
      refine ⟨t, m, ?_, by rw [hW1]; exact hrest⟩
      rw [hW1]
      show (W.sched.register w now c).1.slot i = some t
      rw [register_eq_addTask, addTask_slot_of_occupied _ _ _ _ _ _ _ _ i (by rw [hslot]; simp),
        hslot]
    · right
      rw [hW1]
      exact hdone
  | CancelTask index =>
    have hne : index ≠ i := fun hi => hop (by rw [hi])
    have hW1 : W1 = { W with sched := W.sched.CancelTask index } := (Option.some.inj h).symm
    rcases hinv with ⟨t, m, hslot, hrest⟩ | hdone
    · left
      refine ⟨t, m, ?_, by rw [hW1]; exact hrest⟩
      rw [hW1]
      show (W.sched.removeTask index).slot i = some t
      rw [removeTask_slot_of_ne W.sched index i hne, hslot]
    · right
      rw [hW1]
      exact hdone
  | Update clock =>
    exact foldlM_invariant (TaskMe.updateSlot host w clock) (Alternating i X Y N)
      (fun b a b1 hb hf => alternating_updateSlot host w clock i X Y N hkeep b a b1 hb hf)
      _ W W1 hinv h

theorem alternating_run (host : Nat → List HostCall) (w i X Y N : Nat)
    (hkeep : ∀ f, HostCall.deletes i (host f) = false) (ops : List Op) :
    ∀ W W1, Op.CancelTask i ∉ ops → Alternating i X Y N W →
      World.run host w W ops = some W1 → Alternating i X Y N W1 := by
  induction ops with
  | nil =>
    intro W W1 _ hinv h
    have : W = W1 := Option.some.inj h
    rw [← this]
    exact hinv
  | cons op ops ih =>
    intro W W1 hops hinv h
    rw [run_cons] at h
    cases hstep : World.step host w W op with
    | none => rw [hstep] at h; exact absurd h (by simp)
    | some W2 =>
      rw [hstep] at h
      have hop : op ≠ Op.CancelTask i := fun hc => hops (by rw [hc]; exact List.mem_cons_self _ _)
      exact ih W2 W1 (fun hc => hops (List.mem_cons_of_mem _ hc))
        (alternating_step host w i X Y N hkeep W W2 op hop hinv hstep) h

/-- What `Alternating` says about the single firings: the firing at position `k`, counted
from 0, is `X` for even `k` and `Y` for odd `k`, for every `k` below `N`, and for every `k`
when `N = 0`. -/
theorem alternating_firing (i X Y N : Nat) (W : World) (hinv : Alternating i X Y N W)
    (k f : Nat) (hk : N = 0 ∨ k < N) (hf : (firings i W.trace)[k]? = some f) :
    f = if k % 2 = 0 then X else Y := by
  rcases hinv with ⟨t, m, _, hfir, _, _, _, _⟩ | ⟨hN, rest, hfir⟩
  · rw [hfir, List.getElem?_map] at hf
    by_cases hkm : k < m
    · rw [List.getElem?_range hkm] at hf
      exact (Option.some.inj hf).symm
    · rw [List.getElem?_eq_none (by simp; omega)] at hf
      exact absurd hf (by simp)
  · have hkN : k < N := by
      rcases hk with h0 | h
      · exact absurd h0 hN
      · exact h
    rw [hfir, List.getElem?_append_left (by simp; exact hkN), List.getElem?_map,
      List.getElem?_range hkN] at hf
    exact (Option.some.inj hf).symm

theorem foldlM_total {α β : Type} (f : β → α → Option β) (hstep : ∀ b a, ∃ b1, f b a = some b1)
    (l : List α) : ∀ b, ∃ b1, l.foldlM f b = some b1 := by
  induction l with
  | nil => intro b; exact ⟨b, rfl⟩
  | cons a l ih =>
    intro b
    obtain ⟨b2, h2⟩ := hstep b a
    obtain ⟨b1, h1⟩ := ih b2
    exact ⟨b1, by rw [List.foldlM_cons, h2]; exact h1⟩

/-- The loop body of `Update` returns when no host function calls `CancelTask`. -/
theorem updateSlot_total (host : Nat → List HostCall)
    (hnc : ∀ f j, HostCall.deletes j (host f) = false) (w : Nat) (clock : Clock) (W : World)
    (j : Nat) : ∃ W1, TaskMe.updateSlot host w clock W j = some W1 := by
  cases hslot : W.sched.slot j with
  | none => exact ⟨W, by simp [TaskMe.updateSlot, hslot]⟩
  | some t =>
    by_cases hdue : clock.check j ≥ t.trigger
    · cases hres : TaskMe.updateSlot host w clock W j with
      | some W1 => exact ⟨W1, rfl⟩
      | none =>
        exfalso
        cases hact : t.action with
        | none =>
          by_cases h1 : t.repetitions = 1
          · simp [TaskMe.updateSlot, hslot, TaskMe.updateTask, hdue, TaskMe.processTask, hact,
              h1] at hres
          · by_cases h2 : t.repetitions > 1
            · simp [TaskMe.updateSlot, hslot, TaskMe.updateTask, hdue, TaskMe.processTask, hact,
                h1, h2] at hres
            · have h0 : t.repetitions = 0 := by omega
              simp [TaskMe.updateSlot, hslot, TaskMe.updateTask, hdue, TaskMe.processTask, hact,
                h0] at hres
        | some f =>
          have hsa := invoke_slot_of_occupied host w clock W (Event.action j f) f j t hslot
            (hnc f j)
          by_cases h1 : t.repetitions = 1
          · simp [TaskMe.updateSlot, hslot, TaskMe.updateTask, hdue, TaskMe.processTask, hact,
              h1, hnc f j, hsa] at hres
          · by_cases h2 : t.repetitions > 1
            · simp [TaskMe.updateSlot, hslot, TaskMe.updateTask, hdue, TaskMe.processTask, hact,
                h1, h2, hnc f j] at hres
            · have h0 : t.repetitions = 0 := by omega
              simp [TaskMe.updateSlot, hslot, TaskMe.updateTask, hdue, TaskMe.processTask, hact,
                h0, hnc f j] at hres
    · exact ⟨W, by simp [TaskMe.updateSlot, TaskMe.updateTask, hslot, hdue]⟩

/-- Every sequence of public operations returns when no host function calls `CancelTask`. -/
theorem run_total (host : Nat → List HostCall)
    (hnc : ∀ f j, HostCall.deletes j (host f) = false) (w : Nat) (ops : List Op) (W : World) :
    ∃ W1, World.run host w W ops = some W1 := by
  apply foldlM_total
  intro b op
  cases op with
  | register now c => exact ⟨_, rfl⟩
  | CancelTask index => exact ⟨_, rfl⟩
  | Update clock =>
    exact foldlM_total _ (fun b a => updateSlot_total host hnc w clock b a) _ b

theorem exec_capacity (w now : Nat) (s : TaskMe) (c : HostCall) :
    (HostCall.exec w now s c)._capacity = s._capacity := by
  cases c with
  | CancelTask j => exact (removeTask_shape s j).2
  | register c =>
    show (s.register w now c).1._capacity = s._capacity
    rw [register_eq_addTask]
    exact (addTask_shape s w now _ _ _ _ _).2

theorem execBody_capacity (w : Nat) (reading : Nat → Nat) (body : List HostCall) :
    ∀ (first : Nat) (s : TaskMe),
      (HostCall.execBody w reading first body s)._capacity = s._capacity := by
  induction body with
  | nil => intro first s; rfl
  | cons c body ih =>
    intro first s
    show (HostCall.execBody w reading (first + 1) body
      (HostCall.exec w (reading first) s c))._capacity = s._capacity
    rw [ih, exec_capacity]

/-- The loop body of `Update` never changes `_capacity`, whatever the host functions do. -/
theorem updateSlot_capacity (host : Nat → List HostCall) (w : Nat) (clock : Clock)
    (W W1 : World) (j : Nat) (h : TaskMe.updateSlot host w clock W j = some W1) :
    W1.sched._capacity = W.sched._capacity := by
  rcases updateSlot_cases host w clock W W1 j h with ⟨h1, _⟩ | ⟨t, Wa, _, _, hact, hrest⟩
  · rw [h1]
  · have ha : Wa.sched._capacity = W.sched._capacity := by
      rcases hact with ⟨_, hWa⟩ | ⟨f, _, _, hWa⟩
      · rw [hWa]
      · rw [hWa]
        exact execBody_capacity w _ (host f) 0 W.sched
    rcases hrest with ⟨_, hW1⟩ | ⟨_, t1, W2, _, hcb, hW1⟩
    · rw [hW1]
      exact ha
    · have h2 : W2.sched._capacity = W.sched._capacity := by
        rcases hcb with ⟨_, hW2⟩ | ⟨g, _, hW2⟩
        · rw [hW2]; exact ha
        · rw [hW2]
          exact (execBody_capacity w _ (host g) 0 Wa.sched).trans ha
      rw [hW1]
      show (W2.sched.removeTask j)._capacity = W.sched._capacity
      rw [(removeTask_shape W2.sched j).2]
      exact h2

theorem foldlM_invariant_mem {α β : Type} (f : β → α → Option β) (P : β → Prop) (l : List α)
    (hstep : ∀ b a b1, a ∈ l → P b → f b a = some b1 → P b1) :
    ∀ b b1, P b → l.foldlM f b = some b1 → P b1 := by
  induction l with
  | nil =>
    intro b b1 hb h
    have : b = b1 := Option.some.inj h
    rw [← this]
    exact hb
  | cons a l ih =>
    intro b b1 hb h
    rw [List.foldlM_cons] at h
    cases hfa : f b a with
    | none => rw [hfa] at h; exact absurd h (by simp)
    | some b2 =>
      rw [hfa] at h
      exact ih (fun b a1 b1 ha1 => hstep b a1 b1 (List.mem_cons_of_mem _ ha1)) b2 b1
        (hstep b a b2 (List.mem_cons_self _ _) hb hfa) h

/-- One `Update` pass never changes `_capacity`, whatever the host functions do. -/
theorem Update_capacity (host : Nat → List HostCall) (w : Nat) (clock : Clock) (W W1 : World)
    (h : TaskMe.Update host w clock W = some W1) : W1.sched._capacity = W.sched._capacity :=
  foldlM_invariant (TaskMe.updateSlot host w clock)
    (fun V => V.sched._capacity = W.sched._capacity)
    (fun b a b1 hb hf => (updateSlot_capacity host w clock b b1 a hf).trans hb) _ W W1 rfl h

/-- The loop body of `Update` at `j` adds no event of a slot `i ≠ j`. -/
theorem updateSlot_eventsOf_other (host : Nat → List HostCall) (w : Nat) (clock : Clock)
    (W W1 : World) (i j : Nat) (hji : j ≠ i)
    (h : TaskMe.updateSlot host w clock W j = some W1) :
    eventsOf i W1.trace = eventsOf i W.trace := by
  obtain ⟨new, hnew, hidx⟩ := updateSlot_trace host w clock W W1 j h
  have hnil : eventsOf i new = [] := by
    unfold eventsOf
    rw [List.filter_eq_nil_iff]
    intro e he
    simp [hidx e he, hji]
  rw [hnew, eventsOf_append, hnil, List.append_nil]

theorem range_split (i n : Nat) (hi : i < n) :
    List.range n = List.range i ++ i :: List.range' (i + 1) (n - (i + 1)) := by
  have hn : n = ((n - (i + 1)) + 1) + i := by omega
  conv_lhs => rw [hn]
  rw [List.range_eq_range', List.range_eq_range', ← List.range'_append_1, Nat.zero_add,
    List.range'_succ]

/-- One `Update` pass, whatever the host functions do as long as none cancels slot `i`, seen
from an occupied slot `i`: the task is not due and stays as it is; or it is due with
`repetitions != 1`, its action is called and the slot then holds the rearmed task; or it is
due with `repetitions == 1` and its action and its callback are called.  These are the only
events of slot `i` in the pass. -/
theorem Update_own_slot (host : Nat → List HostCall) (w : Nat) (clock : Clock) (W W1 : World)
    (i : Nat) (t : Task) (hkeep : ∀ f, HostCall.deletes i (host f) = false)
    (hi : i < W.sched._capacity) (hslot : W.sched.slot i = some t)
    (h : TaskMe.Update host w clock W = some W1) :
    (clock.check i < t.trigger ∧ W1.sched.slot i = some t ∧
      eventsOf i W1.trace = eventsOf i W.trace) ∨
    (clock.check i ≥ t.trigger ∧ t.repetitions ≠ 1 ∧
      W1.sched.slot i = some (t.rearmed w (clock.rearm i)) ∧
      eventsOf i W1.trace = eventsOf i W.trace ++ actionEvents i t.action) ∨
    (clock.check i ≥ t.trigger ∧ t.repetitions = 1 ∧
      eventsOf i W1.trace
        = eventsOf i W.trace ++ actionEvents i t.action ++ callbackEvents i t.callback) := by
  unfold TaskMe.Update at h
  rw [range_split i _ hi, List.foldlM_append] at h
  cases hA : (List.range i).foldlM (TaskMe.updateSlot host w clock) W with
  | none => rw [hA] at h; exact absurd h (by simp)
  | some Wa =>
    rw [hA] at h
    simp only [Option.bind_eq_bind, Option.some_bind, List.foldlM_cons] at h
    cases hB : TaskMe.updateSlot host w clock Wa i with
    | none => rw [hB] at h; exact absurd h (by simp)
    | some Wb =>
      rw [hB] at h
      have hh : (List.range' (i + 1) (W.sched._capacity - (i + 1))).foldlM
          (TaskMe.updateSlot host w clock) Wb = some W1 := h
      -- the slots before `i`
      have hpre : Wa.sched.slot i = some t ∧ eventsOf i Wa.trace = eventsOf i W.trace :=
        foldlM_invariant_mem (TaskMe.updateSlot host w clock)
          (fun V => V.sched.slot i = some t ∧ eventsOf i V.trace = eventsOf i W.trace)
          (List.range i)
          (fun b a b1 ha hb hf => by
            have hai : a ≠ i := by
              have := List.mem_range.1 ha
              omega
            exact ⟨updateSlot_other host w clock b b1 i a t hai hkeep hb.1 hf,
              (updateSlot_eventsOf_other host w clock b b1 i a hai hf).trans hb.2⟩)
          W Wa ⟨hslot, rfl⟩ hA
      -- the slots after `i`
      have hev : eventsOf i W1.trace = eventsOf i Wb.trace :=
        foldlM_invariant_mem (TaskMe.updateSlot host w clock)
          (fun V => eventsOf i V.trace = eventsOf i Wb.trace)
          (List.range' (i + 1) (W.sched._capacity - (i + 1)))
          (fun b a b1 ha hb hf => by
            have hai : a ≠ i := by
              have := (List.mem_range'_1.1 ha).1
              omega
            exact (updateSlot_eventsOf_other host w clock b b1 i a hai hf).trans hb)
          Wb W1 rfl hh
      have hpost : ∀ t1, Wb.sched.slot i = some t1 → W1.sched.slot i = some t1 := by
        intro t1 ht1
        exact foldlM_invariant_mem (TaskMe.updateSlot host w clock)
          (fun V => V.sched.slot i = some t1)
          (List.range' (i + 1) (W.sched._capacity - (i + 1)))
          (fun b a b1 ha hb hf => by
            have hai : a ≠ i := by
              have := (List.mem_range'_1.1 ha).1
              omega
            exact updateSlot_other host w clock b b1 i a t1 hai hkeep hb hf)
          Wb W1 ht1 hh
      rcases updateSlot_self host w clock Wa Wb i t hpre.1 hB with
        ⟨hlt, h1⟩ | ⟨hdue, hrep, hs1, htr⟩ | ⟨hdue, hrep, htr⟩
      · left
        rw [h1] at hev hpost
        exact ⟨hlt, hpost t hpre.1, hev.trans hpre.2⟩
      · right; left
        refine ⟨hdue, hrep, hpost _ hs1, ?_⟩
        rw [hev, htr, eventsOf_append, hpre.2]
        congr 1
        rw [eventsOf, List.filter_eq_self]
        intro e he
        simp [index_of_mem_actionEvents i _ e he]
      · right; right
        refine ⟨hdue, hrep, ?_⟩
        rw [hev, htr, eventsOf_append, eventsOf_append, hpre.2]
        congr 1
        · congr 1
          rw [eventsOf, List.filter_eq_self]
          intro e he
          simp [index_of_mem_actionEvents i _ e he]
        · rw [eventsOf, List.filter_eq_self]
          intro e he
          simp [index_of_mem_callbackEvents i _ e he]

theorem firings_of_eventsOf (i : Nat) (tr₁ tr₂ : List Event) (new : List Event)
    (h : eventsOf i tr₂ = eventsOf i tr₁ ++ new) :
    firings i tr₂ = firings i tr₁ ++ new.filterMap Event.fired := by
  unfold firings
  rw [h, List.filterMap_append]

/-- A task with two non-null actions that is due in every one of a sequence of `Update`
passes, no host function cancelling its slot: every pass that returns has fired it once,
in alternation.  The task is due in a pass when `updateTask` reads at least the deadline,
which is the one set at registration or by `rearmTask` in the pass before. -/
theorem due_run_alternant (host : Nat → List HostCall) (w i P : Nat)
    (hkeep : ∀ f, HostCall.deletes i (host f) = false) (clocks : List Clock) :
    ∀ (c0 : Clock) (W : World) (t : Task) (a b : Nat), W.sched.slot i = some t →
      i < W.sched._capacity → t.time = P → t.action = some a → t.alternateAction = some b →
      t.trigger ≤ (c0.rearm i + P) % 2 ^ w →
      List.Chain (fun x y : Clock => (x.rearm i + P) % 2 ^ w ≤ y.check i) c0 clocks →
      (t.repetitions = 0 ∨ clocks.length ≤ t.repetitions) →
      ∀ W1, World.run host w W (clocks.map Op.Update) = some W1 →
        firings i W1.trace =
          firings i W.trace ++ (List.range clocks.length).map (fun k => if k % 2 = 0 then a else b)
          := by
  induction clocks with
  | nil =>
    intro c0 W t a b _ _ _ _ _ _ _ _ W1 hrun
    have : W = W1 := Option.some.inj hrun
    rw [← this]
    simp
  | cons x rest ih =>
    intro c0 W t a b hslot hi htime ha hb htrig hchain hlenrep W1 hrun
    rw [List.chain_cons] at hchain
    obtain ⟨hx, hrest⟩ := hchain
    have hdue : x.check i ≥ t.trigger := by omega
    rw [List.map_cons, run_cons] at hrun
    cases hup : World.step host w W (Op.Update x) with
    | none => rw [hup] at hrun; exact absurd hrun (by simp)
    | some W2 =>
      rw [hup] at hrun
      have hrun2 : World.run host w W2 (rest.map Op.Update) = some W1 := hrun
      have hup2 : TaskMe.Update host w x W = some W2 := hup
      have hcap2 := Update_capacity host w x W W2 hup2
      rcases Update_own_slot host w x W W2 i t hkeep hi hslot hup2 with
        ⟨hlt, _, _⟩ | ⟨_, hrep, hs2, hev2⟩ | ⟨_, hrep, hev2⟩
      · omega
      · have hfir2 : firings i W2.trace = firings i W.trace ++ [a] := by
          rw [firings_of_eventsOf i W.trace W2.trace _ hev2, ha]
          rfl
        have hnext := ih x W2 (t.rearmed w (x.rearm i)) b a hs2 (by omega)
          (by simp [Task.rearmed, TaskMe.rearmTask, htime])
          (by simp [Task.rearmed, TaskMe.rearmTask, hb])
          (by simp [Task.rearmed, TaskMe.rearmTask, hb, ha])
          (by simp [Task.rearmed, TaskMe.rearmTask, htime])
          hrest
          (by
            have hr : (t.rearmed w (x.rearm i)).repetitions = t.repetitions - 1 := by
              simp [Task.rearmed, TaskMe.rearmTask]
            rw [hr]
            rcases hlenrep with h0 | hle
            · left; omega
            · right
              simp only [List.length_cons] at hle
              omega)
          W1 hrun2
        rw [hnext, hfir2, List.length_cons, map_range_succ_front, List.append_assoc]
        simp only [parity_swap]
        rfl
      · have hrestnil : rest = [] := by
          rcases hlenrep with h0 | hle
          · omega
          · rw [hrep] at hle
            simp only [List.length_cons] at hle
            exact List.length_eq_zero.1 (by omega)
        subst hrestnil
        have h12 : W2 = W1 := Option.some.inj hrun2
        rw [List.append_assoc] at hev2
        rw [← h12, firings_of_eventsOf i W.trace W2.trace _ hev2, ha, List.filterMap_append,
          fired_actionEvents, fired_callbackEvents]
        rfl

/-! ## The claims -/

/-- C1, the code at a failing input: on a fresh scheduler of capacity 2, one registration
followed by two `CancelTask(0)` leaves no slot occupied, yet `Count()` is 255, above
`Capacity()`. -/
theorem count_invariant_broken_by_cancel :
    (World.run inert 32 (World.new 2)
        [Op.register 0 (AddCall.AddSingle 100 (some 1)), Op.CancelTask 0, Op.CancelTask 0]).map
      (fun W => (W.sched.Count, W.sched.Capacity, W.sched.occupied)) = some (255, 2, 0) := by
  decide

/-- C2, the code at a failing input: after two registrations, two `CancelTask(0)` and one
more registration on a scheduler of capacity 2, `Count()` is 1, below `Capacity()`, and both
slots are occupied; a further registration returns 1, the index of an occupied slot, and
leaves `Count()` at 1. -/
theorem register_below_capacity_fails :
    ∃ W, World.run inert 32 (World.new 2)
        [Op.register 0 (AddCall.AddSingle 100 (some 1)),
         Op.register 0 (AddCall.AddSingle 100 (some 2)),
         Op.CancelTask 0, Op.CancelTask 0,
         Op.register 0 (AddCall.AddSingle 100 (some 3))] = some W ∧
      W.sched.Count = 1 ∧ W.sched.Capacity = 2 ∧
      (W.sched.slot 0).isSome = true ∧ (W.sched.slot 1).isSome = true ∧
      (W.sched.register 32 0 (AddCall.AddSingle 100 (some 4))).2 = 1 ∧
      (W.sched.register 32 0 (AddCall.AddSingle 100 (some 4))).1 = W.sched := by
  refine ⟨_, rfl, ?_⟩
  decide

/-- C3, counterexample: at clock reading 4294967000 on a 32-bit `unsigned long`, `addTask`
with period 1000 stores the deadline 704, not 4294967000 + 1000. -/
theorem addTask_deadline_wraps :
    ∃ t, ((TaskMe.new 1).addTask 32 4294967000 1000 (some 1) none 1 none).1.slot 0 = some t ∧
      t.trigger = 704 ∧ (t.trigger : Int) ≠ 4294967000 + 1000 := by
  refine ⟨_, rfl, ?_⟩
  decide

/-- C3, amended: on a scheduler that is not full and has an empty slot, `addTask` claims the
lowest-index empty slot `i`, returns `i`, stores in slot `i` the period converted to
`unsigned long`, the deadline `(now + period) mod 2 ^ w` and exactly the given action,
alternate action, repetitions and callback, and leaves every other slot unchanged; when
`0 ≤ period` and `now + period < 2 ^ w` the stored period is the given one and the stored
deadline is `now + period`. -/
theorem addTask_claims_first_free (s : TaskMe) (w now : Nat) (time : Int)
    (action alternateAction : Action) (repetitions : Nat) (callback : Action)
    (hlen : s._tasks.length = s._capacity) (hfull : s.IsFull = false)
    (hfree : ∃ j, j < s._capacity ∧ s.slot j = none) :
    ∃ i, i < s.Capacity ∧ s.slot i = none ∧ (∀ j, j < i → s.slot j ≠ none) ∧
      (s.addTask w now time action alternateAction repetitions callback).2 = i ∧
      (s.addTask w now time action alternateAction repetitions callback).1.slot i = some
        { time := toULong w time
          trigger := (now + toULong w time) % 2 ^ w
          action := action
          alternateAction := alternateAction
          repetitions := repetitions
          callback := callback } ∧
      (∀ j, j ≠ i →
        (s.addTask w now time action alternateAction repetitions callback).1.slot j = s.slot j) ∧
      (0 ≤ time → (now : Int) + time < ((2 ^ w : Nat) : Int) →
        ((toULong w time : Nat) : Int) = time ∧
        (((now + toULong w time) % 2 ^ w : Nat) : Int) = (now : Int) + time) := by
  obtain ⟨i, hi⟩ := firstFree_of_free s hfree
  obtain ⟨hnone, hlt, hfirst⟩ := (firstFree_eq_some s i).1 hi
  refine ⟨i, hlt, hnone, hfirst, ?_, ?_, ?_, ?_⟩
  · rw [addTask_of_firstFree s w now time action alternateAction repetitions callback i hfull hi]
  · rw [addTask_of_firstFree s w now time action alternateAction repetitions callback i hfull hi]
    simp only [TaskMe.slot]
    rw [getD_set_none, if_pos ⟨rfl, by omega⟩]
  · intro j hj
    rw [addTask_of_firstFree s w now time action alternateAction repetitions callback i hfull hi]
    simp only [TaskMe.slot]
    rw [getD_set_none, if_neg (fun h => hj h.1.symm)]
  · intro h0 hsum
    have hnow : (0 : Int) ≤ (now : Int) := Int.ofNat_nonneg now
    have htime : time < ((2 ^ w : Nat) : Int) := by omega
    have hconv := toULong_of_nonneg w time h0 htime
    refine ⟨hconv, ?_⟩
    have hlt2 : now + toULong w time < 2 ^ w := by
      have : ((now + toULong w time : Nat) : Int) < ((2 ^ w : Nat) : Int) := by
        rw [Nat.cast_add, hconv]; exact hsum
      exact Int.ofNat_lt.1 this
    rw [Nat.mod_eq_of_lt hlt2, Nat.cast_add, hconv]

theorem addTask_claims_first_free_witness :
    ∃ i, i < (TaskMe.new 2).Capacity ∧ (TaskMe.new 2).slot i = none ∧
      (∀ j, j < i → (TaskMe.new 2).slot j ≠ none) ∧
      ((TaskMe.new 2).addTask 32 5 10 (some 1) (some 2) 3 (some 4)).2 = i ∧
      ((TaskMe.new 2).addTask 32 5 10 (some 1) (some 2) 3 (some 4)).1.slot i = some
        { time := toULong 32 10
          trigger := (5 + toULong 32 10) % 2 ^ 32
          action := some 1
          alternateAction := some 2
          repetitions := 3
          callback := some 4 } ∧
      (∀ j, j ≠ i →
        ((TaskMe.new 2).addTask 32 5 10 (some 1) (some 2) 3 (some 4)).1.slot j
          = (TaskMe.new 2).slot j) ∧
      ((0 : Int) ≤ 10 → ((5 : Nat) : Int) + 10 < ((2 ^ 32 : Nat) : Int) →
        ((toULong 32 10 : Nat) : Int) = 10 ∧
        (((5 + toULong 32 10) % 2 ^ 32 : Nat) : Int) = ((5 : Nat) : Int) + 10) :=
  addTask_claims_first_free (TaskMe.new 2) 32 5 10 (some 1) (some 2) 3 (some 4)
    (by decide) (by decide) ⟨0, by decide, by decide⟩

/-- C4: on a scheduler with `Count() == Capacity()` every registration call returns
`Count()` and leaves the slot table, `Count()` and `Capacity()` unchanged; as a step of the
main program it leaves the scheduler and the record of invoked host functions unchanged. -/
theorem register_full (host : Nat → List HostCall) (s : TaskMe) (w now : Nat) (c : AddCall)
    (trace : List Event) (h : s.Count = s.Capacity) :
    s.register w now c = (s, s.Count) ∧
      World.step host w { sched := s, trace := trace } (Op.register now c)
        = some { sched := s, trace := trace } := by
  have hfull : s.IsFull = true := by
    simp only [TaskMe.Count, TaskMe.Capacity] at h
    simp [TaskMe.IsFull, h]
  have hadd : ∀ time action alternateAction repetitions callback,
      s.addTask w now time action alternateAction repetitions callback = (s, s._count) := by
    intro time action alternateAction repetitions callback
    simp [TaskMe.addTask, hfull]
  have hreg : s.register w now c = (s, s.Count) := by
    cases c <;>
      simp only [TaskMe.register, TaskMe.AddDelay, TaskMe.AddSingle, TaskMe.AddSingle_callback,
        TaskMe.AddRepetitive, TaskMe.AddRepetitive_callback, TaskMe.AddContinuous,
        TaskMe.AddContinuous_callback, TaskMe.AddAlternant, TaskMe.AddAlternant_callback,
        TaskMe.AddAlternantContinuous, TaskMe.AddAlternantContinuous_callback, hadd,
        TaskMe.Count]
  refine ⟨hreg, ?_⟩
  simp only [World.step, hreg]

theorem register_full_witness :
    ((TaskMe.new 1).AddSingle 32 0 100 (some 1)).1.register 32 7 (AddCall.AddDelay 5 (some 2))
        = (((TaskMe.new 1).AddSingle 32 0 100 (some 1)).1,
            ((TaskMe.new 1).AddSingle 32 0 100 (some 1)).1.Count) ∧
      World.step inert 32
          { sched := ((TaskMe.new 1).AddSingle 32 0 100 (some 1)).1, trace := [] }
          (Op.register 7 (AddCall.AddDelay 5 (some 2)))
        = some { sched := ((TaskMe.new 1).AddSingle 32 0 100 (some 1)).1, trace := [] } :=
  register_full inert ((TaskMe.new 1).AddSingle 32 0 100 (some 1)).1 32 7
    (AddCall.AddDelay 5 (some 2)) [] (by decide)

/-- C5, the code at a failing input: `CancelTask(0)` on a never-used slot of a fresh
scheduler of capacity 1 leaves the table unchanged but turns `Count()` from 0 into 255, and
`CancelTask(0)` on the already cancelled slot of a scheduler that held one task turns
`Count()` from 0 into 255 as well. -/
theorem cancel_empty_slot_changes_count :
    (TaskMe.new 1).slot 0 = none ∧ (TaskMe.new 1).Count = 0 ∧
      ((TaskMe.new 1).CancelTask 0)._tasks = (TaskMe.new 1)._tasks ∧
      ((TaskMe.new 1).CancelTask 0).Count = 255 ∧
      ((((TaskMe.new 1).AddSingle 32 0 100 (some 1)).1.CancelTask 0).slot 0 = none) ∧
      ((((TaskMe.new 1).AddSingle 32 0 100 (some 1)).1.CancelTask 0).Count = 0) ∧
      (((((TaskMe.new 1).AddSingle 32 0 100 (some 1)).1.CancelTask 0).CancelTask 0).Count
        = 255) := by
  decide

/-- C6, the code at a failing input: after two registrations and two `CancelTask(0)` on a
scheduler of capacity 2, slot 1 is occupied and `Count()` is 0; `CancelTask(1)` empties
slot 1 and turns `Count()` into 255. -/
theorem cancel_occupied_slot_wraps_count :
    ∃ W, World.run inert 32 (World.new 2)
        [Op.register 0 (AddCall.AddSingle 100 (some 1)),
         Op.register 0 (AddCall.AddSingle 100 (some 2)),
         Op.CancelTask 0, Op.CancelTask 0] = some W ∧
      W.sched.Count = 0 ∧ (W.sched.slot 1).isSome = true ∧
      (W.sched.CancelTask 1).slot 1 = none ∧ (W.sched.CancelTask 1).Count = 255 := by
  refine ⟨_, rfl, ?_⟩
  decide

/-- C7: for every index at or above `Capacity()`, `CancelTask` leaves the whole scheduler
state unchanged; as a step of the main program it leaves the scheduler and the record of
invoked host functions unchanged. -/
theorem CancelTask_out_of_range (host : Nat → List HostCall) (s : TaskMe) (w index : Nat)
    (trace : List Event) (h : index ≥ s.Capacity) :
    s.CancelTask index = s ∧
      World.step host w { sched := s, trace := trace } (Op.CancelTask index)
        = some { sched := s, trace := trace } := by
  have hcancel : s.CancelTask index = s := by
    simp only [TaskMe.Capacity] at h
    simp [TaskMe.CancelTask, TaskMe.removeTask, h]
  refine ⟨hcancel, ?_⟩
  simp only [World.step, hcancel]

theorem CancelTask_out_of_range_witness :
    ((TaskMe.new 2).AddSingle 32 0 100 (some 1)).1.CancelTask 2
        = ((TaskMe.new 2).AddSingle 32 0 100 (some 1)).1 ∧
      World.step inert 32
          { sched := ((TaskMe.new 2).AddSingle 32 0 100 (some 1)).1, trace := [] }
          (Op.CancelTask 2)
        = some { sched := ((TaskMe.new 2).AddSingle 32 0 100 (some 1)).1, trace := [] } :=
  CancelTask_out_of_range inert ((TaskMe.new 2).AddSingle 32 0 100 (some 1)).1 32 2 []
    (by decide)

/-- C9, counterexample: `AddAlternantContinuous(50, f1, f2)` in slot 0, where host function 1
calls `CancelTask(0)`.  In the first due `Update` the action `f1` deletes the task and
`processTask` goes on to read it: the pass has no defined result, so there is no second
firing that invokes `f2`. -/
theorem alternant_task_cancelled_by_action :
    World.run (fun f => if f = 1 then [HostCall.CancelTask 0] else []) 32 (World.new 1)
        [Op.register 0 (AddCall.AddAlternantContinuous 50 (some 1) (some 2)),
         Op.Update (Clock.const 50)] = none ∧
    World.run (fun f => if f = 1 then [HostCall.CancelTask 0] else []) 32 (World.new 1)
        [Op.register 0 (AddCall.AddAlternantContinuous 50 (some 1) (some 2)),
         Op.Update (Clock.const 50), Op.Update (Clock.const 100)] = none := by
  constructor <;> decide

/-- C9, amended: a task registered in slot `i` by a registration call with non-null `action`
`X`, non-null `alternateAction` `Y` and `N` repetitions (the calls of `AddAlternant` and
`AddAlternantContinuous`), where no host function calls `CancelTask` on slot `i`; host
functions may register tasks and cancel other slots.  After any sequence of registrations,
`Update` passes and `CancelTask` calls on other slots that returns, the firing of slot `i`
at position `k`, counted from 0, is `X` for even `k` and `Y` for odd `k`, for every
`k < N`, and for every `k` when `N = 0`: the `k`-th firing counted from 1 invokes `X` for
odd `k` and `Y` for even `k`.  Every such sequence returns when no host function calls
`CancelTask` at all.  And after `Update` passes that return and in each of which the task
is due, as many as `N` at most when `N ≠ 0`, the firings of slot `i` are exactly
`X, Y, X, ...`, one for every pass: three due passes after
`AddAlternantContinuous(50, X, Y)` invoke `X, Y, X`.
The task is due in a pass when `updateTask` reads at least its deadline, which is
`(t + period) mod 2 ^ w` for the reading `t` of `addTask` or, after a firing, of
`rearmTask` in the pass before. -/
theorem alternant_task_alternates (host : Nat → List HostCall)
    (s s1 : TaskMe) (w T i X Y : Nat) (c : AddCall)
    (hX : c.action = some X) (hY : c.alternateAction = some Y)
    (hlen : s._tasks.length = s._capacity) (hfull : s.IsFull = false)
    (hfree : ∃ j, j < s._capacity ∧ s.slot j = none)
    (hreg : s.register w T c = (s1, i))
    (hkeep : ∀ f, HostCall.deletes i (host f) = false) :
    (i < s.Capacity ∧ s.slot i = none ∧ s1.slot i ≠ none) ∧
    (∀ (ops : List Op) (W : World), Op.CancelTask i ∉ ops →
      World.run host w { sched := s1, trace := [] } ops = some W →
      ∀ k f, (c.repetitions = 0 ∨ k < c.repetitions) → (firings i W.trace)[k]? = some f →
        f = if k % 2 = 0 then X else Y) ∧
    ((∀ f j, HostCall.deletes j (host f) = false) →
      ∀ ops : List Op, ∃ W, World.run host w { sched := s1, trace := [] } ops = some W) ∧
    (∀ (clocks : List Clock) (W : World),
      List.Chain (fun a b : Clock => (a.rearm i + toULong w c.time) % 2 ^ w ≤ b.check i)
        (Clock.const T) clocks →
      (c.repetitions = 0 ∨ clocks.length ≤ c.repetitions) →
      World.run host w { sched := s1, trace := [] } (clocks.map Op.Update) = some W →
      firings i W.trace
        = (List.range clocks.length).map (fun k => if k % 2 = 0 then X else Y)) := by
  obtain ⟨hlt, hnone, hslot, _, _, hcap1, _, _⟩ := register_success s w T c hlen hfull hfree
  rw [hreg] at hlt hnone hslot hcap1
  simp only [hX, hY] at hslot
  refine ⟨⟨hlt, hnone, by rw [hslot]; simp⟩, ?_, ?_, ?_⟩
  · intro ops W hops hrun k f hk hf
    have hinit : Alternating i X Y c.repetitions { sched := s1, trace := [] } := by
      left
      refine ⟨_, 0, hslot, rfl, rfl, rfl, fun h => h, fun h => ⟨rfl, ?_⟩⟩
      show 1 ≤ c.repetitions
      omega
    exact alternating_firing i X Y c.repetitions W
      (alternating_run host w i X Y c.repetitions hkeep ops _ W hops hinit hrun) k f hk hf
  · intro hnc ops
    exact run_total host hnc w ops _
  · intro clocks W hchain hrep hrun
    have hi1 : i < s1._capacity := by
      have h1 : s1._capacity = s._capacity := hcap1
      rw [h1]
      exact hlt
    have h := due_run_alternant host w i (toULong w c.time) hkeep clocks (Clock.const T)
      { sched := s1, trace := [] } _ X Y hslot hi1 rfl rfl rfl
      (Nat.le_refl _) hchain hrep W hrun
    rw [h]
    rfl

theorem alternant_task_alternates_witness :
    (∃ W, World.run
        (fun f => if f = 1 then [HostCall.register (AddCall.AddSingle 10 (some 7))]
          else if f = 2 then [HostCall.CancelTask 1] else []) 32
        { sched := ((TaskMe.new 3).register 32 0
            (AddCall.AddAlternantContinuous 50 (some 1) (some 2))).1
          trace := [] }
        [Op.Update (Clock.const 50), Op.Update (Clock.ticking 100 2),
          Op.register 120 (AddCall.AddSingle 10 (some 7)), Op.CancelTask 1,
          Op.Update (Clock.const 152), Op.Update (Clock.const 300)] = some W ∧
      firings 0 W.trace = [1, 2, 1, 2] ∧
      ∀ k f, ((AddCall.AddAlternantContinuous 50 (some 1) (some 2)).repetitions = 0 ∨
          k < (AddCall.AddAlternantContinuous 50 (some 1) (some 2)).repetitions) →
        (firings 0 W.trace)[k]? = some f → f = if k % 2 = 0 then 1 else 2) ∧
    (∃ W, World.run
        (fun f => if f = 1 then [HostCall.register (AddCall.AddSingle 10 (some 7))]
          else if f = 2 then [HostCall.CancelTask 1] else []) 32
        { sched := ((TaskMe.new 3).register 32 0
            (AddCall.AddAlternantContinuous 50 (some 1) (some 2))).1
          trace := [] }
        ([Clock.ticking 50 7, Clock.ticking 107 3, Clock.const 160].map Op.Update) = some W ∧
      firings 0 W.trace = (List.range 3).map (fun k => if k % 2 = 0 then 1 else 2)) :=
  ⟨⟨_, rfl, by decide,
    (alternant_task_alternates
      (fun f => if f = 1 then [HostCall.register (AddCall.AddSingle 10 (some 7))]
        else if f = 2 then [HostCall.CancelTask 1] else [])
      (TaskMe.new 3)
      ((TaskMe.new 3).register 32 0 (AddCall.AddAlternantContinuous 50 (some 1) (some 2))).1
      32 0 0 1 2 (AddCall.AddAlternantContinuous 50 (some 1) (some 2)) rfl rfl (by decide)
      (by decide) ⟨0, by decide, by decide⟩ (by decide)
      (fun f => by
        by_cases h1 : f = 1
        · simp [h1, HostCall.deletes]
        · by_cases h2 : f = 2
          · simp [h2, HostCall.deletes]
          · simp [h1, h2, HostCall.deletes])).2.1
      [Op.Update (Clock.const 50), Op.Update (Clock.ticking 100 2),
        Op.register 120 (AddCall.AddSingle 10 (some 7)), Op.CancelTask 1,
        Op.Update (Clock.const 152), Op.Update (Clock.const 300)] _ (by simp) rfl⟩,
   ⟨_, rfl,
    (alternant_task_alternates
      (fun f => if f = 1 then [HostCall.register (AddCall.AddSingle 10 (some 7))]
        else if f = 2 then [HostCall.CancelTask 1] else [])
      (TaskMe.new 3)
      ((TaskMe.new 3).register 32 0 (AddCall.AddAlternantContinuous 50 (some 1) (some 2))).1
      32 0 0 1 2 (AddCall.AddAlternantContinuous 50 (some 1) (some 2)) rfl rfl (by decide)
      (by decide) ⟨0, by decide, by decide⟩ (by decide)
      (fun f => by
        by_cases h1 : f = 1
        · simp [h1, HostCall.deletes]
        · by_cases h2 : f = 2
          · simp [h2, HostCall.deletes]
          · simp [h1, h2, HostCall.deletes])).2.2.2
      [Clock.ticking 50 7, Clock.ticking 107 3, Clock.const 160] _
      (List.Chain.cons (by decide) (List.Chain.cons (by decide) (List.Chain.cons (by decide)
        List.Chain.nil)))
      (Or.inl rfl) rfl⟩⟩

/-- C10: a task registered with `repetitions == 0` (every `AddContinuous` and
`AddAlternantContinuous` call) on a scheduler that is not full and has an empty slot: after
any sequence of registrations, `Update` passes and `CancelTask` calls on other indices, host
functions not touching the scheduler, the run returns, the slot of the task is still
occupied, its repetitions field is still 0, its period is the one stored at registration, and
no completion callback was invoked for the slot; `CancelTask` on its index empties the
slot. -/
theorem continuous_task_never_removed (host : Nat → List HostCall) (hinert : ∀ f, host f = [])
    (s : TaskMe) (w now : Nat) (c : AddCall) (hrep : c.repetitions = 0)
    (hlen : s._tasks.length = s._capacity) (hfull : s.IsFull = false)
    (hfree : ∃ j, j < s._capacity ∧ s.slot j = none)
    (ops : List Op) (hops : Op.CancelTask (s.register w now c).2 ∉ ops) :
    (s.register w now c).1.slot (s.register w now c).2 ≠ none ∧
    ∃ W t, World.run host w { sched := (s.register w now c).1, trace := [] } ops = some W ∧
      W.sched.slot (s.register w now c).2 = some t ∧
      t.repetitions = 0 ∧ t.time = toULong w c.time ∧
      (∀ f, Event.callback (s.register w now c).2 f ∉ W.trace) ∧
      (W.sched.CancelTask (s.register w now c).2).slot (s.register w now c).2 = none := by
  obtain ⟨hlt, _, hslot, _, hlen1, hcap1, _, _⟩ := register_success s w now c hlen hfull hfree
  refine ⟨by rw [hslot]; simp, ?_⟩
  obtain ⟨W, t, hrun, hlenW, hslotW, hrepW, htimeW, hcbW⟩ :=
    continuous_run host hinert w (s.register w now c).2 (toULong w c.time) ops hops
      { sched := (s.register w now c).1, trace := [] } hlen1 _ hslot hrep rfl (by simp)
  refine ⟨W, t, hrun, hslotW, hrepW, htimeW, hcbW, ?_⟩
  have hcapW : (s.register w now c).2 < W.sched._capacity := by
    by_contra hcon
    have := slot_of_length_le W.sched (s.register w now c).2 (by omega)
    rw [hslotW] at this
    exact absurd this (by simp)
  exact removeTask_slot_self W.sched _ hcapW

theorem continuous_task_never_removed_witness :
    ((TaskMe.new 2).register 32 0 (AddCall.AddAlternantContinuous 50 (some 1) (some 2))).1.slot
        ((TaskMe.new 2).register 32 0 (AddCall.AddAlternantContinuous 50 (some 1) (some 2))).2
      ≠ none ∧
    ∃ W t, World.run inert 32
        { sched :=
            ((TaskMe.new 2).register 32 0
              (AddCall.AddAlternantContinuous 50 (some 1) (some 2))).1
          trace := [] }
        [Op.Update (Clock.const 50),
          Op.register 60 (AddCall.AddSingle_callback 10 (some 3) (some 4)),
          Op.Update (Clock.const 100), Op.CancelTask 1, Op.Update (Clock.const 4294967295)]
          = some W ∧
      W.sched.slot
        ((TaskMe.new 2).register 32 0 (AddCall.AddAlternantContinuous 50 (some 1) (some 2))).2
        = some t ∧
      t.repetitions = 0 ∧
      t.time = toULong 32 (AddCall.AddAlternantContinuous 50 (some 1) (some 2)).time ∧
      (∀ f, Event.callback
        ((TaskMe.new 2).register 32 0 (AddCall.AddAlternantContinuous 50 (some 1) (some 2))).2 f
          ∉ W.trace) ∧
      (W.sched.CancelTask
        ((TaskMe.new 2).register 32 0
          (AddCall.AddAlternantContinuous 50 (some 1) (some 2))).2).slot
        ((TaskMe.new 2).register 32 0 (AddCall.AddAlternantContinuous 50 (some 1) (some 2))).2
        = none :=
  continuous_task_never_removed inert (fun _ => rfl) (TaskMe.new 2) 32 0
    (AddCall.AddAlternantContinuous 50 (some 1) (some 2)) rfl (by decide) (by decide)
    ⟨0, by decide, by decide⟩
    [Op.Update (Clock.const 50),
      Op.register 60 (AddCall.AddSingle_callback 10 (some 3) (some 4)),
      Op.Update (Clock.const 100), Op.CancelTask 1, Op.Update (Clock.const 4294967295)]
    (by simp; decide)

/-- C11, counterexample.  First: two `AddDelay(100, _)` at clock reading 0 on a scheduler of
capacity 2, one `Update` at reading 100: the callback of slot 0 is invoked once and the slot
is emptied, and `Count()` goes from 2 to 0, not to 1, because the other delay finishes in
the same pass.  Second: `AddSingle(50, f1)` and `AddDelay(100, f6)` where host function 1
calls `CancelTask(1)`: after `Update` passes at readings 50 and 100 the callback `f6` was
never invoked.  Third: `AddDelay(100, f6)` where host function 6 registers a task: the
`Update` at reading 100 invokes `f6` and empties slot 0, and `Count()` is 1 as before. -/
theorem delay_task_count_and_hosts :
    (∃ W W1, World.run inert 32 (World.new 2)
        [Op.register 0 (AddCall.AddDelay 100 (some 6)),
         Op.register 0 (AddCall.AddDelay 100 (some 7))] = some W ∧
      W.sched.Count = 2 ∧
      TaskMe.Update inert 32 (Clock.const 100) W = some W1 ∧
      eventsOf 0 W1.trace = [Event.callback 0 6] ∧
      W1.sched.slot 0 = none ∧ W1.sched.Count = 0) ∧
    (∃ W, World.run (fun f => if f = 1 then [HostCall.CancelTask 1] else []) 32 (World.new 2)
        [Op.register 0 (AddCall.AddSingle 50 (some 1)),
         Op.register 0 (AddCall.AddDelay 100 (some 6)),
         Op.Update (Clock.const 50), Op.Update (Clock.const 100)] = some W ∧
      W.trace = [Event.action 0 1]) ∧
    (∃ W W1,
      World.run (fun f => if f = 6 then [HostCall.register (AddCall.AddSingle 50 (some 7))]
          else []) 32 (World.new 2)
        [Op.register 0 (AddCall.AddDelay 100 (some 6))] = some W ∧
      W.sched.Count = 1 ∧
      TaskMe.Update (fun f => if f = 6 then [HostCall.register (AddCall.AddSingle 50 (some 7))]
          else []) 32 (Clock.const 100) W = some W1 ∧
      W1.trace = [Event.callback 0 6] ∧
      W1.sched.slot 0 = none ∧ W1.sched.Count = 1) := by
  refine ⟨⟨_, _, rfl, ?_, rfl, ?_, ?_, ?_⟩, ⟨_, rfl, ?_⟩, ⟨_, _, rfl, ?_, rfl, ?_, ?_, ?_⟩⟩ <;>
    decide

/-- C11, amended: for a period `P ≥ 0` and a registration time `T` with `T + P` not wrapping
the clock, a task registered with `AddDelay(P, callback)` in slot `i` of a scheduler that is
not full and has an empty slot, host functions not touching the scheduler: after any
`Update` passes in which `updateTask` reads, for the task, less than `T + P`, nothing has
been invoked for slot `i` and the slot holds the task as registered; the next `Update` in
which `updateTask` reads at least `T + P` invokes for slot `i` the callback once and nothing
else, empties the slot, and reduces `Count()` by one for this task and by one for every
other slot that finishes in the same pass, provided `Count()` was at least that number,
which it is when `Count()` was the number of occupied slots at registration. -/
theorem delay_task_lifecycle (host : Nat → List HostCall) (hinert : ∀ f, host f = [])
    (s s1 : TaskMe) (w T P i : Nat) (callback : Action) (early : List Clock) (cdue : Clock)
    (hvalid : s.Valid) (hfull : s.IsFull = false)
    (hfree : ∃ j, j < s._capacity ∧ s.slot j = none)
    (hreg : s.register w T (AddCall.AddDelay (P : Int) callback) = (s1, i))
    (hnowrap : T + P < 2 ^ w) (hearly : ∀ x ∈ early, x.check i < T + P)
    (hdue : T + P ≤ cdue.check i) :
    (i < s.Capacity ∧ s.slot i = none ∧ s1.Count = s.Count + 1 ∧
      s1.slot i = some
        { time := P, trigger := T + P, repetitions := 1, action := none,
          alternateAction := none, callback := callback }) ∧
    ∃ Wpre Wfin,
      World.run host w { sched := s1, trace := [] } (early.map Op.Update) = some Wpre ∧
      eventsOf i Wpre.trace = [] ∧ Wpre.sched.slot i = s1.slot i ∧
      TaskMe.Update host w cdue Wpre = some Wfin ∧
      eventsOf i Wfin.trace = callbackEvents i callback ∧
      Wfin.sched.slot i = none ∧
      (1 + (List.range Wpre.sched.Capacity).countP
            (fun j => decide (j ≠ i) && passFinished (cdue.check j) (Wpre.sched.slot j))
          ≤ Wpre.sched.Count →
        Wfin.sched.Count + 1 +
            (List.range Wpre.sched.Capacity).countP
              (fun j => decide (j ≠ i) && passFinished (cdue.check j) (Wpre.sched.slot j))
          = Wpre.sched.Count) ∧
      (s.Consistent →
        1 + (List.range Wpre.sched.Capacity).countP
            (fun j => decide (j ≠ i) && passFinished (cdue.check j) (Wpre.sched.slot j))
          ≤ Wpre.sched.Count) := by
  obtain ⟨hlenS, hcapS, hcntS⟩ := hvalid
  have hlt2 : s._count < s._capacity := by simpa [TaskMe.IsFull] using hfull
  obtain ⟨hlt, hnone, hslot, _, hlen1, _, hcount1, _⟩ :=
    register_success s w T (AddCall.AddDelay (P : Int) callback) hlenS hfull hfree
  rw [hreg] at hlt hnone hslot hlen1 hcount1
  simp only [AddCall.time, AddCall.action, AddCall.alternateAction, AddCall.repetitions,
    AddCall.callback] at hslot
  have hconv : toULong w (P : Int) = P := by
    have h := toULong_of_nonneg w (P : Int) (Int.ofNat_nonneg P)
      (by exact_mod_cast (show P < 2 ^ w by omega))
    exact_mod_cast h
  rw [hconv, Nat.mod_eq_of_lt hnowrap] at hslot
  have hcnt : s._count + 1 < 256 := by omega
  have hcnt1 : s1._count < 256 := by
    rw [hcount1]
    exact Nat.mod_lt _ (by decide)
  refine ⟨⟨hlt, hnone, ?_, hslot⟩, ?_⟩
  · simp only [TaskMe.Count]
    rw [hcount1, Nat.mod_eq_of_lt hcnt]
  obtain ⟨Wpre, hrunpre, _, hlenpre, hslotspre, hevpre, hconspre, hboundpre⟩ :=
    run_updates_inert host hinert w early { sched := s1, trace := [] } hlen1
  obtain ⟨Wfin, hup, hcapfin, hlenfin, hslotsfin, _, hevfin, _, _, _⟩ :=
    Update_inert host hinert w cdue Wpre hlenpre
  obtain ⟨hp, he⟩ := passes_not_due w i early
    { time := P, trigger := T + P, repetitions := 1, action := none,
      alternateAction := none, callback := callback } hearly
  have hslotpre : Wpre.sched.slot i = some
      { time := P, trigger := T + P, repetitions := 1, action := none,
        alternateAction := none, callback := callback } := by
    rw [hslotspre i, hslot, hp]
  have hevpre0 : eventsOf i Wpre.trace = [] := by
    rw [hevpre i, hslot, he]
    rfl
  have hfinished : passFinished (cdue.check i) (Wpre.sched.slot i) = true := by
    rw [hslotpre]
    simp [passFinished, hdue]
  refine ⟨Wpre, Wfin, hrunpre, hevpre0, by rw [hslotpre, hslot], hup, ?_, ?_, ?_, ?_⟩
  · rw [hevfin i, hevpre0, hslotpre]
    simp [passEvents, hdue, actionEvents]
  · rw [hslotsfin i, hslotpre]
    simp [passSlot, hdue]
  · intro hle
    exact count_after_finish host hinert w cdue Wpre Wfin i hlenpre (hboundpre hcnt1) hup
      hfinished hle
  · intro hs
    have hs1cons := consistent_register s w T (AddCall.AddDelay (P : Int) callback) hs hfull
    rw [hreg] at hs1cons
    have hc1 := (hconspre hs1cons).2
    have hocc := occupied_after_finish w cdue Wpre.sched Wfin.sched
      (hlenfin.trans (hcapfin.trans hlenpre.symm)) hslotsfin i hfinished
    simp only [TaskMe.Count, TaskMe.Capacity]
    rw [hc1, ← hlenpre]
    omega

theorem delay_task_lifecycle_witness :
    ∃ Wpre Wfin,
      World.run inert 32
        { sched := (((TaskMe.new 2).register 32 0 (AddCall.AddSingle 1000 (some 9))).1.register
            32 10 (AddCall.AddDelay ((100 : Nat) : Int) (some 6))).1
          trace := [] }
        ([Clock.const 10, Clock.const 50, Clock.ticking 100 3].map Op.Update) = some Wpre ∧
      eventsOf 1 Wpre.trace = [] ∧
      Wpre.sched.slot 1 = (((TaskMe.new 2).register 32 0
        (AddCall.AddSingle 1000 (some 9))).1.register
          32 10 (AddCall.AddDelay ((100 : Nat) : Int) (some 6))).1.slot 1 ∧
      TaskMe.Update inert 32 (Clock.ticking 104 3) Wpre = some Wfin ∧
      eventsOf 1 Wfin.trace = callbackEvents 1 (some 6) ∧
      Wfin.sched.slot 1 = none ∧
      (1 + (List.range Wpre.sched.Capacity).countP
            (fun j => decide (j ≠ 1) &&
              passFinished ((Clock.ticking 104 3).check j) (Wpre.sched.slot j))
          ≤ Wpre.sched.Count →
        Wfin.sched.Count + 1 +
            (List.range Wpre.sched.Capacity).countP
              (fun j => decide (j ≠ 1) &&
                passFinished ((Clock.ticking 104 3).check j) (Wpre.sched.slot j))
          = Wpre.sched.Count) ∧
      (TaskMe.Consistent ((TaskMe.new 2).register 32 0 (AddCall.AddSingle 1000 (some 9))).1 →
        1 + (List.range Wpre.sched.Capacity).countP
            (fun j => decide (j ≠ 1) &&
              passFinished ((Clock.ticking 104 3).check j) (Wpre.sched.slot j))
          ≤ Wpre.sched.Count) :=
  (delay_task_lifecycle inert (fun _ => rfl)
    ((TaskMe.new 2).register 32 0 (AddCall.AddSingle 1000 (some 9))).1
    (((TaskMe.new 2).register 32 0 (AddCall.AddSingle 1000 (some 9))).1.register
      32 10 (AddCall.AddDelay ((100 : Nat) : Int) (some 6))).1
    32 10 100 1 (some 6)
    [Clock.const 10, Clock.const 50, Clock.ticking 100 3]
    (Clock.ticking 104 3)
    ⟨by decide, by decide, by decide⟩ (by decide) ⟨1, by decide, by decide⟩ (by decide)
    (by decide) (by decide) (by decide)).2

/-- C12, the code at a failing input: after two `AddSingle(100, _)` and two `CancelTask(0)`
on a scheduler of capacity 2, slot 1 holds a task with deadline 100 and repetitions 1 and
`Count()` is 0; one `Update` during which the clock reads 100 fires that slot once and
empties it, and `Count()` becomes 255 instead of being reduced by one. -/
theorem update_count_wraps_after_cancel :
    ∃ W W1, World.run inert 32 (World.new 2)
        [Op.register 0 (AddCall.AddSingle 100 (some 1)),
         Op.register 0 (AddCall.AddSingle 100 (some 2)),
         Op.CancelTask 0, Op.CancelTask 0] = some W ∧
      W.sched.Count = 0 ∧ W.sched.slot 0 = none ∧
      W.sched.slot 1 = some
        { time := 100, trigger := 100, repetitions := 1, action := some 2,
          alternateAction := none, callback := none } ∧
      TaskMe.Update inert 32 (Clock.const 100) W = some W1 ∧
      W1.trace = W.trace ++ [Event.action 1 2] ∧
      W1.sched.slot 1 = none ∧ W1.sched.Count = 255 := by
  refine ⟨_, _, rfl, ?_, ?_, ?_, rfl, ?_, ?_, ?_⟩ <;> decide

/-- C13: for a scheduler constructed with capacity 0, whatever the host functions, every
sequence of public operations (registrations, `Update`, `CancelTask` with any index)
returns and leaves the scheduler as constructed and the record of invoked host functions
empty; in that state `IsFull()` and `IsEmpty()` are true, `Count()` is 0, and every
registration call returns 0 and leaves the state unchanged. -/
theorem capacity_zero_scheduler (host : Nat → List HostCall) (w : Nat) (ops : List Op) :
    World.run host w (World.new 0) ops = some (World.new 0) ∧
      (World.new 0).trace = [] ∧
      (World.new 0).sched.IsFull = true ∧ (World.new 0).sched.IsEmpty = true ∧
      (World.new 0).sched.Count = 0 ∧
      ∀ now c, (World.new 0).sched.register w now c = ((World.new 0).sched, 0) := by
  refine ⟨?_, rfl, by decide, by decide, rfl, ?_⟩
  · induction ops with
    | nil => rfl
    | cons op ops ih => rw [run_cons, step_capacity_zero]; exact ih
  · intro now c
    exact register_of_full (World.new 0).sched w now c (by decide)

/-- C14, counterexample.  First: a continuous task with period 100 registered at clock
reading 0 is due at 100; in the `Update` in which `updateTask` reads 100 and `rearmTask`,
after the action has run, reads 107, its deadline becomes 207, not 100 + 100.  Second: a
continuous task with period 1000 registered at clock reading 4294966000 on a 32-bit
`unsigned long` is due at 4294967000; processing it there sets its deadline to 704, not to
4294967000 + 1000.  Third: when the action of a due task (host function 1) calls
`CancelTask` on the task's own slot, `processTask` goes on to read the deleted task: the
pass has no defined result. -/
theorem rearm_deadline_not_now_plus_period :
    (∃ W t, World.run inert 32 (World.new 1)
        [Op.register 0 (AddCall.AddContinuous 100 (some 1)),
         Op.Update (Clock.ticking 100 7)] = some W ∧
      W.sched.slot 0 = some t ∧ t.time = 100 ∧ t.trigger = 207 ∧ t.trigger ≠ 100 + 100) ∧
    (∃ W t, World.run inert 32 (World.new 1)
        [Op.register 4294966000 (AddCall.AddContinuous 1000 (some 1)),
         Op.Update (Clock.const 4294967000)] = some W ∧
      W.sched.slot 0 = some t ∧ t.time = 1000 ∧ t.trigger = 704 ∧
      (t.trigger : Int) ≠ 4294967000 + 1000) ∧
    World.run (fun f => if f = 1 then [HostCall.CancelTask 0] else []) 32 (World.new 1)
        [Op.register 0 (AddCall.AddContinuous 1000 (some 1)), Op.Update (Clock.const 1000)]
      = none := by
  refine ⟨⟨_, _, rfl, rfl, ?_⟩, ⟨_, _, rfl, rfl, ?_⟩, ?_⟩ <;> decide

/-- C14, amended: for a task in slot `index` that is due (the reading of `millis()` in
`updateTask` is at or after its deadline), with repetitions `r ≠ 1`, whose action, if any,
does not cancel the task itself, the loop body of `Update` returns, records the call of the
action and no call of the completion callback, keeps the slot occupied, leaves the period
and the completion callback unchanged, sets the deadline to `(t + period) mod 2 ^ w`, `t`
being the reading of `millis()` in `rearmTask`, taken after the action has run (the
deadline is `t + period` when that is below `2 ^ w`, and `now + period` when moreover the
clock still reads the `now` of the due test), swaps action and alternate action when the
alternate action is non-null and otherwise keeps the action and the null alternate action,
and sets repetitions to `r - 1` when `r > 1` and leaves it 0 when `r = 0`. -/
theorem due_task_rearmed (host : Nat → List HostCall) (w : Nat) (clock : Clock) (index : Nat)
    (W : World) (t : Task) (hslot : W.sched.slot index = some t)
    (hdue : clock.check index ≥ t.trigger) (hrep : t.repetitions ≠ 1)
    (halive : ∀ f, t.action = some f → HostCall.deletes index (host f) = false) :
    ∃ W1, TaskMe.updateSlot host w clock W index = some W1 ∧
      W1.trace = W.trace ++ actionEvents index t.action ∧
      W1.sched.slot index = some
        { time := t.time
          trigger := (clock.rearm index + t.time) % 2 ^ w
          repetitions := if t.repetitions > 1 then t.repetitions - 1 else 0
          action := if t.alternateAction = none then t.action else t.alternateAction
          alternateAction := if t.alternateAction = none then none else t.action
          callback := t.callback } ∧
      (clock.rearm index + t.time < 2 ^ w →
        (clock.rearm index + t.time) % 2 ^ w = clock.rearm index + t.time) ∧
      (clock.rearm index = clock.check index → clock.check index + t.time < 2 ^ w →
        (clock.rearm index + t.time) % 2 ^ w = clock.check index + t.time) := by
  have hupd : TaskMe.updateTask host w clock index W
      = TaskMe.processTask host w clock index W := by
    simp only [TaskMe.updateTask, hslot, hdue, if_true]
  have hrepv : (if t.repetitions > 1 then t.repetitions - 1 else 0) = t.repetitions - 1 := by
    split <;> omega
  have hsame : clock.rearm index = clock.check index → clock.check index + t.time < 2 ^ w →
      (clock.rearm index + t.time) % 2 ^ w = clock.check index + t.time := by
    intro h1 h2
    rw [h1]
    exact Nat.mod_eq_of_lt h2
  rw [hrepv]
  cases hact : t.action with
  | none =>
    have hproc : TaskMe.processTask host w clock index W =
        some (false, W.store index (t.rearmed w (clock.rearm index))) := by
      by_cases h2 : t.repetitions > 1
      · simp [TaskMe.processTask, hslot, hact, hrep, h2, Task.rearmed]
      · have h0 : t.repetitions = 0 := by omega
        simp [TaskMe.processTask, hslot, hact, h0, Task.rearmed]
    refine ⟨W.store index (t.rearmed w (clock.rearm index)), ?_, ?_, ?_,
      fun h => Nat.mod_eq_of_lt h, hsame⟩
    · simp [TaskMe.updateSlot, hslot, hupd, hproc]
    · simp [World.store, actionEvents]
    · rw [slot_store_self W index t _ hslot]
      simp [Task.rearmed, TaskMe.rearmTask, hact]
  | some f =>
    have hnd := halive f hact
    have hproc : TaskMe.processTask host w clock index W =
        some (false, (W.invoke host w clock (Event.action index f) f).store index
          (t.rearmed w (clock.rearm index))) := by
      by_cases h2 : t.repetitions > 1
      · simp [TaskMe.processTask, hslot, hact, hrep, h2, Task.rearmed, hnd]
      · have h0 : t.repetitions = 0 := by omega
        simp [TaskMe.processTask, hslot, hact, h0, Task.rearmed, hnd]
    have hkeep : (W.invoke host w clock (Event.action index f) f).sched.slot index = some t :=
      invoke_slot_of_occupied host w clock W _ f index t hslot hnd
    refine ⟨(W.invoke host w clock (Event.action index f) f).store index
      (t.rearmed w (clock.rearm index)), ?_, ?_, ?_, fun h => Nat.mod_eq_of_lt h, hsame⟩
    · simp [TaskMe.updateSlot, hslot, hupd, hproc]
    · simp [World.store, World.invoke, actionEvents]
    · rw [slot_store_self _ index t _ hkeep]
      simp [Task.rearmed, TaskMe.rearmTask, hact]

theorem due_task_rearmed_witness :
    ∃ W1, TaskMe.updateSlot (fun f => if f = 1 then [HostCall.CancelTask 1] else []) 32
        (Clock.ticking 150 7)
        { sched := ((TaskMe.new 2).register 32 0
            (AddCall.AddAlternant 50 (some 1) (some 2) 3)).1, trace := [] } 0 = some W1 ∧
      W1.trace = [Event.action 0 1] ∧
      W1.sched.slot 0 = some
        { time := 50, trigger := (157 + 50) % 2 ^ 32, repetitions := 2, action := some 2,
          alternateAction := some 1, callback := none } ∧
      (157 + 50 < 2 ^ 32 → (157 + 50) % 2 ^ 32 = 157 + 50) ∧
      (157 = 150 → 150 + 50 < 2 ^ 32 → (157 + 50) % 2 ^ 32 = 150 + 50) :=
  due_task_rearmed (fun f => if f = 1 then [HostCall.CancelTask 1] else []) 32
    (Clock.ticking 150 7) 0
    { sched := ((TaskMe.new 2).register 32 0
        (AddCall.AddAlternant 50 (some 1) (some 2) 3)).1, trace := [] }
    (Task.mk 50 50 3 (some 1) (some 2) none) (by decide) (by decide) (by decide)
    (fun f hf => by
      have h1 : f = 1 := by
        have : (some 1 : Option Nat) = some f := hf
        exact (Option.some.inj this).symm
      subst h1
      decide)

/-- C15: for an occupied slot `i` whose deadline is strictly greater than the clock reading
that `updateTask` takes for it, whatever the other readings of the pass, one `Update` call,
host functions not touching the scheduler, returns, leaves the task record of slot `i`
(period, deadline, repetitions, action, alternate action, callback) and its occupancy
unchanged, and none of the invocations it makes belongs to slot `i`. -/
theorem not_due_slot_untouched (host : Nat → List HostCall) (hinert : ∀ f, host f = [])
    (w : Nat) (clock : Clock) (W : World) (i : Nat) (t : Task)
    (hlen : W.sched._tasks.length = W.sched._capacity)
    (hslot : W.sched.slot i = some t) (hnot : clock.check i < t.trigger) :
    ∃ W1 new, TaskMe.Update host w clock W = some W1 ∧
      W1.sched.slot i = some t ∧
      W1.trace = W.trace ++ new ∧ (∀ e ∈ new, e.index ≠ i) := by
  obtain ⟨W1, hup, _, _, hslots, htrace, _, _, _, _⟩ := Update_inert host hinert w clock W hlen
  have hx : ¬ clock.check i ≥ t.trigger := by omega
  refine ⟨W1, _, hup, ?_, htrace, ?_⟩
  · rw [hslots i, hslot]
    simp [passSlot, hx]
  · intro e he hidx
    rw [List.mem_flatMap] at he
    obtain ⟨j, _, hej⟩ := he
    have hj := index_of_mem_passEvents (clock.check j) j _ e hej
    have hji : j = i := by omega
    subst hji
    rw [hslot] at hej
    simp [passEvents, hx] at hej

theorem not_due_slot_untouched_witness :
    ∃ W1 new, TaskMe.Update inert 32 (Clock.const 99)
        { sched := (((TaskMe.new 2).register 32 0
            (AddCall.AddSingle_callback 100 (some 1) (some 2))).1.register 32 0
              (AddCall.AddSingle 50 (some 3))).1
          trace := [] } = some W1 ∧
      W1.sched.slot 0 = some
        { time := 100, trigger := 100, repetitions := 1, action := some 1,
          alternateAction := none, callback := some 2 } ∧
      W1.trace = [] ++ new ∧ (∀ e ∈ new, e.index ≠ 0) :=
  not_due_slot_untouched inert (fun _ => rfl) 32 (Clock.const 99)
    { sched := (((TaskMe.new 2).register 32 0
        (AddCall.AddSingle_callback 100 (some 1) (some 2))).1.register 32 0
          (AddCall.AddSingle 50 (some 3))).1
      trace := [] } 0
    { time := 100, trigger := 100, repetitions := 1, action := some 1,
      alternateAction := none, callback := some 2 } (by decide) (by decide) (by decide)

/-- C16, the code at a failing input: capacity 2; slot 0 holds a task that is not due,
slot 1 a task with repetitions 1 whose completion callback (host function 9) calls
`CancelTask(1)`; `Count()` is 2.  One `Update` at the deadline of slot 1 invokes the action
and the callback, leaves slot 1 empty and slot 0 as it was, and `Count()` is 0: the slot
was freed twice, by the callback and by `Update`. -/
theorem self_cancelling_callback_frees_twice :
    ∃ W W1, World.run (fun f => if f = 9 then [HostCall.CancelTask 1] else []) 32 (World.new 2)
        [Op.register 0 (AddCall.AddSingle 1000 (some 1)),
         Op.register 0 (AddCall.AddSingle_callback 100 (some 2) (some 9))] = some W ∧
      W.sched.Count = 2 ∧ (W.sched.slot 0).isSome = true ∧
      W.sched.slot 1 = some
        { time := 100, trigger := 100, repetitions := 1, action := some 2,
          alternateAction := none, callback := some 9 } ∧
      TaskMe.Update (fun f => if f = 9 then [HostCall.CancelTask 1] else []) 32
          (Clock.const 100) W = some W1 ∧
      W1.trace = [Event.action 1 2, Event.callback 1 9] ∧
      W1.sched.slot 0 = W.sched.slot 0 ∧ W1.sched.slot 1 = none ∧
      W1.sched.Count = 0 := by
  refine ⟨_, _, rfl, ?_, ?_, ?_, rfl, ?_, ?_, ?_, ?_⟩ <;> decide

/-- C17: from a freshly constructed scheduler, every sequence of registrations, `Update`
passes (host functions not touching the scheduler) and `CancelTask` calls on indices that
are out of range or occupied at the time of the call returns, and leaves a state in which
`Count()` is the number of occupied slots and at most `Capacity()`. -/
theorem count_invariant_disciplined (host : Nat → List HostCall) (hinert : ∀ f, host f = [])
    (w capacity : Nat) (ops : List Op)
    (hops : World.disciplined host w (World.new capacity) ops = true) :
    ∃ W, World.run host w (World.new capacity) ops = some W ∧
      W.sched.Count = W.sched.occupied ∧ W.sched.Count ≤ W.sched.Capacity := by
  obtain ⟨W, hrun, hs⟩ :=
    consistent_run host hinert w ops (World.new capacity) (consistent_new capacity) hops
  exact ⟨W, hrun, hs.2, count_le_capacity W.sched hs⟩

theorem count_invariant_disciplined_witness :
    ∃ W, World.run inert 32 (World.new 2)
        [Op.register 0 (AddCall.AddSingle 100 (some 1)),
         Op.register 0 (AddCall.AddContinuous 50 (some 2)), Op.CancelTask 7,
         Op.Update (Clock.const 100), Op.CancelTask 1,
         Op.register 120 (AddCall.AddDelay 5 (some 3)), Op.Update (Clock.const 200)] = some W ∧
      W.sched.Count = W.sched.occupied ∧ W.sched.Count ≤ W.sched.Capacity :=
  count_invariant_disciplined inert (fun _ => rfl) 32 2
    [Op.register 0 (AddCall.AddSingle 100 (some 1)),
     Op.register 0 (AddCall.AddContinuous 50 (some 2)), Op.CancelTask 7,
     Op.Update (Clock.const 100), Op.CancelTask 1,
     Op.register 120 (AddCall.AddDelay 5 (some 3)), Op.Update (Clock.const 200)] (by decide)

/-- C18: in a state whose `Count()` is the number of occupied slots a registration call
returns a value below `Capacity()` exactly when it stored a task: then the returned index
was an empty slot, now holds the task, and `Count()` grew by one; otherwise the call left
the state unchanged and returned exactly `Capacity()`. -/
theorem register_result_distinguishes (s : TaskMe) (w now : Nat) (c : AddCall)
    (hs : s.Consistent) :
    ((s.register w now c).2 < s.Capacity ↔ (s.register w now c).1 ≠ s) ∧
    ((s.register w now c).2 < s.Capacity →
      s.slot (s.register w now c).2 = none ∧
      (s.register w now c).1.slot (s.register w now c).2 = some
        { time := toULong w c.time
          trigger := (now + toULong w c.time) % 2 ^ w
          action := c.action
          alternateAction := c.alternateAction
          repetitions := c.repetitions
          callback := c.callback } ∧
      (s.register w now c).1.Count = s.Count + 1) ∧
    (¬ (s.register w now c).2 < s.Capacity →
      (s.register w now c).2 = s.Capacity ∧ (s.register w now c).1 = s) := by
  have hle := count_le_capacity s hs
  simp only [TaskMe.Count, TaskMe.Capacity] at hle ⊢
  cases hfull : s.IsFull with
  | true =>
    have hge : s._count ≥ s._capacity := by simpa [TaskMe.IsFull] using hfull
    have heq : s._count = s._capacity := by omega
    rw [register_of_full s w now c hfull]
    refine ⟨?_, ?_, fun _ => ⟨heq, rfl⟩⟩
    · constructor
      · intro h; simp only at h; omega
      · intro h; exact absurd rfl h
    · intro h; simp only at h; omega
  | false =>
    have hfree := exists_free_of_consistent s hs hfull
    obtain ⟨hlt, hnone, hslot, _, _, _, hcount, _⟩ :=
      register_success s w now c hs.1.1 hfull hfree
    have hlt2 : s._count < s._capacity := by simpa [TaskMe.IsFull] using hfull
    have hcap := hs.1.2.1
    refine ⟨?_, ?_, fun h => absurd hlt h⟩
    · constructor
      · intro _ heq
        rw [heq] at hslot
        rw [hslot] at hnone
        exact absurd hnone (by simp)
      · intro _; exact hlt
    · intro _
      refine ⟨hnone, hslot, ?_⟩
      rw [hcount, Nat.mod_eq_of_lt (by omega)]

theorem register_result_distinguishes_witness :
    (((TaskMe.new 1).register 32 5 (AddCall.AddDelay 10 (some 1))).1.register 32 6
        (AddCall.AddSingle 10 (some 2))).2
      = ((TaskMe.new 1).register 32 5 (AddCall.AddDelay 10 (some 1))).1.Capacity ∧
    (((TaskMe.new 1).register 32 5 (AddCall.AddDelay 10 (some 1))).1.register 32 6
        (AddCall.AddSingle 10 (some 2))).1
      = ((TaskMe.new 1).register 32 5 (AddCall.AddDelay 10 (some 1))).1 :=
  (register_result_distinguishes
    ((TaskMe.new 1).register 32 5 (AddCall.AddDelay 10 (some 1))).1 32 6
    (AddCall.AddSingle 10 (some 2)) ⟨⟨by decide, by decide, by decide⟩, by decide⟩).2.2
    (by decide)

/-- C20: `addTask` at clock reading `now < 2 ^ w` with period `time` stores the deadline
`(now + time) mod 2 ^ w`, the period being converted to `unsigned long` first: `2 ^ w -
|time|` for a negative period of magnitude at most `2 ^ w`.  For a negative period with
`|time| ≤ now` the deadline is `now - |time|`, so it is at or before every clock reading
from `now` on (the task is due at the first `Update`), and `rearmTask` of a task with this
period at any clock reading `r` with `now ≤ r < 2 ^ w` sets a deadline at or before `r`. -/
theorem negative_period_deadline (s : TaskMe) (w now : Nat) (time : Int)
    (action alternateAction : Action) (repetitions : Nat) (callback : Action)
    (hlen : s._tasks.length = s._capacity) (hfull : s.IsFull = false)
    (hfree : ∃ j, j < s._capacity ∧ s.slot j = none) (hnow : now < 2 ^ w) :
    ∃ t, (s.addTask w now time action alternateAction repetitions callback).1.slot
        (s.addTask w now time action alternateAction repetitions callback).2 = some t ∧
      t.time = toULong w time ∧
      t.trigger = (now + toULong w time) % 2 ^ w ∧
      ((t.trigger : Nat) : Int) = ((now : Int) + time) % ((2 ^ w : Nat) : Int) ∧
      (time < 0 → -((2 ^ w : Nat) : Int) ≤ time →
        ((t.time : Nat) : Int) = ((2 ^ w : Nat) : Int) - |time|) ∧
      (time < 0 → |time| ≤ (now : Int) →
        ((t.trigger : Nat) : Int) = (now : Int) - |time| ∧
        (∀ later, now ≤ later → later ≥ t.trigger) ∧
        (∀ (r : Nat) (t1 : Task) (a1 b1 : Action) (n1 : Nat), t1.time = t.time →
          now ≤ r → r < 2 ^ w → (TaskMe.rearmTask w r t1 a1 b1 n1).trigger ≤ r)) := by
  obtain ⟨i, hi⟩ := firstFree_of_free s hfree
  obtain ⟨_, hlt, _⟩ := (firstFree_eq_some s i).1 hi
  rw [addTask_of_firstFree s w now time action alternateAction repetitions callback i hfull hi]
  have hpos : (0 : Int) < ((2 ^ w : Nat) : Int) := by exact_mod_cast Nat.two_pow_pos w
  have hnowI : ((now : Nat) : Int) < ((2 ^ w : Nat) : Int) := by exact_mod_cast hnow
  refine ⟨{ time := toULong w time
            trigger := (now + toULong w time) % 2 ^ w
            action := action
            alternateAction := alternateAction
            repetitions := repetitions
            callback := callback }, ?_, rfl, rfl, cast_trigger w now time, ?_, ?_⟩
  · simp only [TaskMe.slot]
    rw [getD_set_none, if_pos ⟨rfl, by omega⟩]
  · intro hneg hge
    rw [toULong_of_neg w time hneg hge, abs_of_neg hneg]
    omega
  · intro hneg habs
    rw [abs_of_neg hneg] at habs ⊢
    have hge : -((2 ^ w : Nat) : Int) ≤ time := by omega
    have hconv := toULong_of_neg w time hneg hge
    have htrig : (((now + toULong w time) % 2 ^ w : Nat) : Int) = (now : Int) + time := by
      rw [cast_trigger, Int.emod_eq_of_lt (by omega) (by omega)]
    refine ⟨by rw [htrig]; omega, ?_, ?_⟩
    · intro later hlater
      have : (((now + toULong w time) % 2 ^ w : Nat) : Int) ≤ (later : Int) := by
        rw [htrig]; omega
      exact_mod_cast this
    · intro r t1 a1 b1 n1 ht1 hr hrw
      have hrI : ((r : Nat) : Int) < ((2 ^ w : Nat) : Int) := by exact_mod_cast hrw
      have hrn : ((now : Nat) : Int) ≤ (r : Int) := by exact_mod_cast hr
      have : (((r + toULong w time) % 2 ^ w : Nat) : Int) ≤ (r : Int) := by
        rw [cast_trigger, Int.emod_eq_of_lt (by omega) (by omega)]
        omega
      simp only [TaskMe.rearmTask, ht1]
      exact_mod_cast this

theorem negative_period_deadline_witness :
    ∃ t, ((TaskMe.new 1).addTask 32 1000 (-300) (some 1) none 0 none).1.slot
        ((TaskMe.new 1).addTask 32 1000 (-300) (some 1) none 0 none).2 = some t ∧
      t.time = toULong 32 (-300) ∧
      t.trigger = (1000 + toULong 32 (-300)) % 2 ^ 32 ∧
      ((t.trigger : Nat) : Int) = (((1000 : Nat) : Int) + (-300)) % ((2 ^ 32 : Nat) : Int) ∧
      ((-300 : Int) < 0 → -((2 ^ 32 : Nat) : Int) ≤ -300 →
        ((t.time : Nat) : Int) = ((2 ^ 32 : Nat) : Int) - |(-300 : Int)|) ∧
      ((-300 : Int) < 0 → |(-300 : Int)| ≤ ((1000 : Nat) : Int) →
        ((t.trigger : Nat) : Int) = ((1000 : Nat) : Int) - |(-300 : Int)| ∧
        (∀ later, 1000 ≤ later → later ≥ t.trigger) ∧
        (∀ (r : Nat) (t1 : Task) (a1 b1 : Action) (n1 : Nat), t1.time = t.time →
          1000 ≤ r → r < 2 ^ 32 → (TaskMe.rearmTask 32 r t1 a1 b1 n1).trigger ≤ r)) :=
  negative_period_deadline (TaskMe.new 1) 32 1000 (-300) (some 1) none 0 none
    (by decide) (by decide) ⟨0, by decide, by decide⟩ (by decide)

end Sched
